import Mathlib

/-!
Verification development for the dynamic-alias resolution engine
(`src/dynamic_alias`): cache store, data resolver, variable substitution,
alias matcher, executor, and the encrypted-cache round trip.

The Python code is shallowly embedded: rows and cache documents become
association lists, the mutable resolver state becomes an explicit state
record threaded through the functions, spawned external processes become
an oracle `String → SpawnOut` supplied as a parameter, and machine
integers/timestamps become `Int`.  Regex-based template scanning is
represented by pre-parsed token lists (`TmplPart`, `AliasTok`) mirroring
the match groups of `REGEX_APP_VAR` / `REGEX_USER_VAR` in `constants.py`.
-/

/-- A resolved data row: a JSON object modelled as an ordered association
list from key to (stringified) value, as produced by
`DataResolver._execute_dynamic_source` and consumed via `item.get(key)`. -/
abbrev Row := List (String × String)

/-- First-match association-list lookup, mirroring Python `dict.get` (dict
keys are unique, so first match is the match). -/
def lookupStr {α : Type} : List (String × α) → String → Option α
  | [], _ => none
  | p :: rest, k => if p.1 = k then some p.2 else lookupStr rest k

/-- Python `d[k] = v`: replace the value under an existing key in place,
otherwise append the new pair (insertion order is preserved by dicts; keys
are unique, so replacing the first occurrence is replacing the
occurrence). -/
def setAssoc {α : Type} : List (String × α) → String → α → List (String × α)
  | [], k, v => [(k, v)]
  | p :: rest, k, v => if p.1 = k then (k, v) :: rest else p :: setAssoc rest k v

/-- Python `str(item.get(key))`: a missing key yields `None`, which
stringifies to `"None"` in `CommandExecutor._match_alias_parts`. -/
def pyStrOpt (v : Option String) : String := v.getD "None"

/-! ## Cache store (`cache.py`, class `CacheManager`)

The in-memory cache dict holds three kinds of keys: source-name entries
`{timestamp, data}`, the `_history` list and the `_locals` mapping; they
are modelled as the three fields of `CacheDoc`.  The on-disk file is the
`disk` field (`none` = file absent); `load`/`save` shuttle the whole
document, with the AES-GCM encryption of the file contents treated as a
transparent transport (it is verified separately in the crypto section). -/

/-- One source entry of the cache: `{"timestamp": ..., "data": ...}`.
`data = none` models a JSON `null` under the `data` key (or a missing
key), which `CacheManager.get` treats as absent. -/
structure CEntry where
  timestamp : Int
  data : Option (List Row)
deriving Repr, DecidableEq

/-- The cache document: source entries plus the reserved `_history` and
`_locals` keys. -/
structure CacheDoc where
  entries : List (String × CEntry)
  history : List String
  locals : List (String × String)
deriving Repr, DecidableEq

/-- The empty cache document. -/
def CacheDoc.empty : CacheDoc := ⟨[], [], []⟩

/-- The cache manager state: the `enabled` flag, the in-memory document
`mem` and the on-disk document `disk` (`none` when no file exists). -/
structure CacheSt where
  enabled : Bool
  mem : CacheDoc
  disk : Option CacheDoc
deriving Repr, DecidableEq

/-- `CacheManager.load`: replace the in-memory document by the decrypted
on-disk one; no-op when disabled or when the file is absent. -/
def cacheLoad (c : CacheSt) : CacheSt :=
  if c.enabled then
    match c.disk with
    | some d => { c with mem := d }
    | none => c
  else c

/-- `CacheManager.save`: serialize and encrypt the full in-memory document
to disk; no-op when disabled. -/
def cacheSave (c : CacheSt) : CacheSt :=
  if c.enabled then { c with disk := some c.mem } else c

/-- `CacheManager.get`: TTL-aware read.  Returns the rows unless the store
is disabled, the entry is absent, its `data` is null, or
`now - timestamp > ttl` (expired). -/
def cacheGet (c : CacheSt) (key : String) (ttl : Int) (now : Int) : Option (List Row) :=
  if c.enabled then
    match lookupStr c.mem.entries key with
    | none => none
    | some e =>
      match e.data with
      | none => none
      | some d => if now - e.timestamp > ttl then none else some d
  else none

/-- `CacheManager.set`: store rows under `key` with the current timestamp;
no-op when disabled. -/
def cacheSetEntry (c : CacheSt) (key : String) (v : List Row) (now : Int) : CacheSt :=
  if c.enabled then
    { c with mem := { c.mem with entries := setAssoc c.mem.entries key ⟨now, some v⟩ } }
  else c

/-- `CacheManager.get_local`: read one `_locals` value. -/
def cacheGetLocal (c : CacheSt) (k : String) : Option String :=
  if c.enabled then lookupStr c.mem.locals k else none

/-- `CacheManager.set_local`: write one `_locals` value and save
immediately. -/
def cacheSetLocal (c : CacheSt) (k v : String) : CacheSt :=
  if c.enabled then
    cacheSave { c with mem := { c.mem with locals := setAssoc c.mem.locals k v } }
  else c

/-- Python slice `history[-limit:]` for an `int` limit, including the
edge cases: a positive limit keeps the last `limit` elements, limit `0`
keeps the whole list (`l[-0:] = l[0:] = l`), and a negative limit `-k`
drops the first `k` elements (`l[k:]`). -/
def pySliceLast (l : List String) (limit : Int) : List String :=
  if 0 < limit then l.drop (l.length - limit.toNat)
  else l.drop (-limit).toNat

/-- `CacheManager.add_history`: append the command, then truncate with
`history[-limit:]` whenever the length exceeds `limit`. -/
def addHistory (c : CacheSt) (cmd : String) (limit : Int) : CacheSt :=
  if c.enabled then
    let h := c.mem.history ++ [cmd]
    let h2 := if (h.length : Int) > limit then pySliceLast h limit else h
    { c with mem := { c.mem with history := h2 } }
  else c

/-- `ConfigBlockParser.parse`, `history-size` key: the configured history
limit is capped at 1000 (`min(val, 1000)`). -/
def configHistorySize (val : Int) : Int := min val 1000

/-! ## Command templates and variable substitution (`constants.py`, `utils.py`)

A command template is a list of parts: literal text, app-variable
references `$$\x7bsource.key\x7d` / `$$\x7bsource[N].key\x7d`
(`REGEX_APP_VAR` match groups: source, optional index, key) and
user-variable references `$\x7bname\x7d` (`REGEX_USER_VAR`).  Substituted
values are treated as inert text, which matches Python as long as data
values do not themselves contain placeholder syntax. -/

/-- One template part, mirroring the regex classification. -/
inductive TmplPart where
  | lit (s : String)
  | appRef (source : String) (idx : Option Nat) (key : String)
  | userRef (name : String)
deriving Repr, DecidableEq

/-- The verbatim text of an app-variable placeholder, i.e. `match.group(0)`
of `REGEX_APP_VAR`. -/
def appRefText (source : String) (idx : Option Nat) (key : String) : String :=
  match idx with
  | none => "$$\x7b" ++ source ++ "." ++ key ++ "\x7d"
  | some n => "$$\x7b" ++ source ++ "[" ++ toString n ++ "]." ++ key ++ "\x7d"

/-- The verbatim text of a user-variable placeholder, i.e. `match.group(0)`
of `REGEX_USER_VAR`. -/
def userRefText (name : String) : String := "$\x7b" ++ name ++ "\x7d"

/-- Render a template back to its string form. -/
def renderParts (parts : List TmplPart) : String :=
  match parts with
  | [] => ""
  | TmplPart.lit s :: rest => s ++ renderParts rest
  | TmplPart.appRef src idx key :: rest => appRefText src idx key ++ renderParts rest
  | TmplPart.userRef n :: rest => userRefText n ++ renderParts rest

/-- A value bound in the matcher's `variables` dict: either a whole row
(bound by an app-variable token) or a raw string (bound by a user-variable
token). -/
inductive CtxVal where
  | vrow (r : Row)
  | vstr (s : String)
deriving Repr, DecidableEq

/-- The matcher's `variables` dict. -/
abbrev Ctx := List (String × CtxVal)

/-- The context-vars (List Mode) and lazy-resolution (Direct Mode)
branches of the `replace` closure in `VariableResolver.resolve_app_vars`:
List Mode applies only when the source is bound to a dict in
`context_vars` and no explicit index was written; otherwise the source is
resolved lazily and indexed (default index 0), and an empty source, an
out-of-bounds index or a missing key leaves the placeholder text
untouched. -/
def replaceAppVarTail {σ : Type} (resolver : String → σ → List Row × σ) (ctx : Ctx)
    (src : String) (idx : Option Nat) (key : String) (index : Nat) (st : σ) : String × σ :=
  match idx, lookupStr ctx src with
  | none, some (CtxVal.vrow item) => ((lookupStr item key).getD (appRefText src idx key), st)
  | _, _ =>
    let (dataList, st1) := resolver src st
    if dataList.isEmpty then (appRefText src idx key, st1)
    else
      match dataList[index]? with
      | some item => ((lookupStr item key).getD (appRefText src idx key), st1)
      | none => (appRefText src idx key, st1)

/-- The body of `VariableResolver.resolve_app_vars` for a single regex
match (`replace`): locals lookup first (only when a `use_local_cache`
callback was supplied), then List Mode / Direct Mode via
`replaceAppVarTail`. -/
def replaceAppVar {σ : Type} (resolver : String → σ → List Row × σ)
    (ctx : Ctx) (useLocal : Option (σ → String → Option String))
    (src : String) (idx : Option Nat) (key : String) (st : σ) : String × σ :=
  let index := idx.getD 0
  match useLocal with
  | some f =>
    if src = "locals" then
      match f st key with
      | some v => (v, st)
      | none => (appRefText src idx key, st)
    else replaceAppVarTail resolver ctx src idx key index st
  | none => replaceAppVarTail resolver ctx src idx key index st

/-- `VariableResolver.resolve_app_vars`: substitute every app-variable
reference left to right (as `re.sub` does), threading the stateful
resolver.  Substituted references become literal parts; user references
and literals pass through. -/
def resolveAppVarsSt {σ : Type} (resolver : String → σ → List Row × σ)
    (ctx : Ctx) (useLocal : Option (σ → String → Option String)) :
    List TmplPart → σ → List TmplPart × σ
  | [], st => ([], st)
  | TmplPart.lit s :: rest, st =>
    let (parts, st1) := resolveAppVarsSt resolver ctx useLocal rest st
    (TmplPart.lit s :: parts, st1)
  | TmplPart.userRef n :: rest, st =>
    let (parts, st1) := resolveAppVarsSt resolver ctx useLocal rest st
    (TmplPart.userRef n :: parts, st1)
  | TmplPart.appRef src idx key :: rest, st =>
    let (s, st1) := replaceAppVar resolver ctx useLocal src idx key st
    let (parts, st2) := resolveAppVarsSt resolver ctx useLocal rest st1
    (TmplPart.lit s :: parts, st2)

/-- `VariableResolver.resolve_user_vars`: substitute `$\x7bname\x7d` with the
bound value when it is bound to a string (`isinstance(variables[key], str)`);
otherwise leave the placeholder verbatim. -/
def resolveUserVarsParts (parts : List TmplPart) (vars : Ctx) : List TmplPart :=
  parts.map fun p =>
    match p with
    | TmplPart.userRef n =>
      match lookupStr vars n with
      | some (CtxVal.vstr s) => TmplPart.lit s
      | _ => TmplPart.userRef n
    | other => other

/-! ## Configuration model (`models.py`, `config.py`)

Only the fields the resolver and executor read are modelled; they are the
fields `ConfigLoader` constructs (`config.py`), which is authoritative for
the shapes the rest of the code consumes. -/

/-- A dynamic source (`dynamic_dict` block): shell-command template, field
mapping (internal key → JSON key), execution timeout and cache TTL. -/
structure DynamicDictConfig where
  name : String
  command : List TmplPart
  mapping : List (String × String)
  priority : Int := 1
  timeout : Int := 10
  cache_ttl : Int := 300
deriving Repr, DecidableEq

/-- The read-only command/source model: static dicts and dynamic dicts by
name. -/
structure Config where
  dicts : List (String × List Row)
  dynamic_dicts : List (String × DynamicDictConfig)
deriving Repr, DecidableEq

/-! ## The external process oracle

`subprocess.run` outcomes for a dynamic-source fetch are modelled by an
oracle from the resolved command string to a `SpawnOut`: a timeout, an
unexpected exception, or completion with an exit code and a stdout shape.
Stdout is classified the way `_execute_dynamic_source` branches on it:
empty after `strip()`, invalid JSON, or parsed JSON (an object, or an
array of objects, per the dynamic-source process protocol). -/

/-- Parsed JSON stdout of a dynamic source: one object or an array of
objects (leaf values stringified). -/
inductive JShape where
  | jsObj (fields : List (String × String))
  | jsArr (objs : List (List (String × String)))
deriving Repr, DecidableEq

/-- Classified stdout of a spawned process. -/
inductive StdoutShape where
  | emptyOut
  | invalidJson
  | jsonOf (v : JShape)
deriving Repr, DecidableEq

/-- Outcome of one `subprocess.run` call. -/
inductive SpawnOut where
  | timedOut
  | raisedErr
  | ran (returncode : Int) (stdout : StdoutShape)
deriving Repr, DecidableEq

/-- Field-mapping projection of one JSON object
(`for internal_key, json_key in dd.mapping.items(): ...`). -/
def mapObj (mapping : List (String × String)) (fields : List (String × String)) : Row :=
  mapping.filterMap fun p => (lookupStr fields p.2).map fun v => (p.1, v)

/-- Project parsed JSON through the field mapping, dropping rows that map
to nothing (`if new_item: mapped_data.append(new_item)`). -/
def mapRows (mapping : List (String × String)) (v : JShape) : List Row :=
  let objs := match v with
    | JShape.jsObj f => [f]
    | JShape.jsArr l => l
  (objs.map (mapObj mapping)).filter fun r => ¬ r.isEmpty

/-- The rows `_execute_dynamic_source` produces from a spawn outcome:
timeouts, exceptions, non-zero exit, empty stdout and invalid JSON all
degrade to the empty row list; success projects through the mapping. -/
def execResultRows (mapping : List (String × String)) (out : SpawnOut) : List Row :=
  match out with
  | SpawnOut.timedOut => []
  | SpawnOut.raisedErr => []
  | SpawnOut.ran rc sout =>
    if rc ≠ 0 then []
    else
      match sout with
      | StdoutShape.emptyOut => []
      | StdoutShape.invalidJson => []
      | StdoutShape.jsonOf v => mapRows mapping v

/-! ## Data resolver (`resolver.py`, class `DataResolver`) -/

/-- The resolver's mutable state: the cache manager, the per-process memo
(`resolved_data`), the in-progress set (`_resolution_stack`), a log of
spawned dynamic-source commands as (source name, command) pairs, and the
current wall-clock time (constant across one resolution). -/
structure RState where
  cache : CacheSt
  memo : List (String × List Row)
  inProg : List String
  spawns : List (String × String)
  now : Int
deriving Repr, DecidableEq

/-- `DataResolver.resolve_one`, with explicit fuel bounding the recursion
depth (the in-progress set bounds the real recursion by the number of
dynamic sources; any fuel larger than that bound gives the Python
behavior).  Order of checks mirrors the source: memo, static dicts,
dynamic dicts (cycle check, cache lookup, execute + cache + save +
memoize, all under a finally that pops the in-progress set), unknown
name. -/
def resolveOne (cfg : Config) (world : String → SpawnOut) :
    Nat → String → RState → List Row × RState
  | 0, _, st => ([], st)
  | Nat.succ fuel, name, st =>
    match lookupStr st.memo name with
    | some rows => (rows, st)
    | none =>
      match lookupStr cfg.dicts name with
      | some rows => (rows, { st with memo := setAssoc st.memo name rows })
      | none =>
        match lookupStr cfg.dynamic_dicts name with
        | some dd =>
          if name ∈ st.inProg then ([], st)
          else
            let st1 := { st with inProg := name :: st.inProg }
            match cacheGet st1.cache name dd.cache_ttl st1.now with
            | some rows =>
              let st2 := { st1 with memo := setAssoc st1.memo name rows }
              (rows, { st2 with inProg := st2.inProg.erase name })
            | none =>
              let sub := resolveAppVarsSt (resolveOne cfg world fuel) [] none dd.command st1
              let cmd := renderParts sub.1
              let rows := execResultRows dd.mapping (world cmd)
              let st3 := { sub.2 with spawns := sub.2.spawns ++ [(name, cmd)] }
              let st4 := { st3 with cache := cacheSave (cacheSetEntry st3.cache name rows st3.now) }
              let st5 := { st4 with memo := setAssoc st4.memo name rows }
              (rows, { st5 with inProg := st5.inProg.erase name })
        | none => ([], st)

/-- Number of spawns logged for a given source name. -/
def spawnsFor (spawns : List (String × String)) (name : String) : Nat :=
  (spawns.filter fun p => p.1 = name).length

/-! ## Alias matcher (`executor.py`, `CommandExecutor._match_alias_parts`) -/

/-- One alias token, classified the way `_match_alias_parts` classifies it
via `parse_app_var` / `parse_user_var` full matches; anything else is a
static token. -/
inductive AliasTok where
  | static (s : String)
  | userVar (name : String)
  | appVar (source : String) (idx : Option Nat) (key : String)
deriving Repr, DecidableEq

/-- The `-h` / `--help` test used throughout the matcher. -/
def isHelpTok (s : String) : Bool := s = "-h" || s = "--help"

/-- Result of the token-pairing loop of `_match_alias_parts`: an early
failure, a help short-circuit with the variables bound so far, or normal
loop exit with the accumulated variables. -/
inductive MatchStep where
  | failed
  | helpFound (vars : Ctx)
  | finished (vars : Ctx)
deriving Repr, DecidableEq

/-- The pairing loop of `_match_alias_parts` over `zip(alias_parts,
input_parts)`: app-variable tokens check help before resolving, then scan
the resolved rows for one whose stringified `key` equals the input token;
user-variable tokens check help then bind the raw string; static tokens
need exact equality. -/
def matchLoop (cfg : Config) (world : String → SpawnOut) (fuel : Nat) :
    List (AliasTok × String) → Ctx → RState → MatchStep × RState
  | [], vars, st => (MatchStep.finished vars, st)
  | (AliasTok.appVar src _idx key, u) :: rest, vars, st =>
    if isHelpTok u then (MatchStep.helpFound vars, st)
    else
      let (dataList, st1) := resolveOne cfg world fuel src st
      if dataList.isEmpty then (MatchStep.failed, st1)
      else
        match dataList.find? (fun item => pyStrOpt (lookupStr item key) = u) with
        | some item => matchLoop cfg world fuel rest (setAssoc vars src (CtxVal.vrow item)) st1
        | none => (MatchStep.failed, st1)
  | (AliasTok.userVar n, u) :: rest, vars, st =>
    if isHelpTok u then (MatchStep.helpFound vars, st)
    else matchLoop cfg world fuel rest (setAssoc vars n (CtxVal.vstr u)) st
  | (AliasTok.static s, u) :: rest, vars, st =>
    if s = u then matchLoop cfg world fuel rest vars st
    else (MatchStep.failed, st)

/-- `CommandExecutor._match_alias_parts`: run the pairing loop, then apply
the final length check — with no help short-circuit, an input shorter than
the alias fails the whole match. -/
def matchAliasParts (cfg : Config) (world : String → SpawnOut) (fuel : Nat)
    (aliasParts : List AliasTok) (inputParts : List String) (st : RState) :
    (Bool × Ctx × Bool) × RState :=
  match matchLoop cfg world fuel (aliasParts.zip inputParts) [] st with
  | (MatchStep.failed, st1) => ((false, [], false), st1)
  | (MatchStep.helpFound vars, st1) => ((true, vars, true), st1)
  | (MatchStep.finished vars, st1) =>
    if inputParts.length < aliasParts.length then ((false, [], false), st1)
    else ((true, vars, false), st1)

/-! ## Executor (`executor.py`, `CommandExecutor.execute`)

`execute` is embedded as a trace of the externally visible effects (the
events below) plus the resulting resolver state.  The spawn outcome of the
final command is an input parameter (`ExecOutcome`), standing for what
`subprocess.run` did. -/

/-- Externally visible effects of `CommandExecutor.execute`, in program
order: the strict-mode diagnostic, terminal state save/restore, the
process spawn (with its full command line and whether output was captured
for set-locals), locals writes, the set-locals validation diagnostic, the
cache reload/save pair, and the three exception diagnostics. -/
inductive EEvent where
  | strictDiag
  | termSaved
  | spawned (cmd : String) (captured : Bool)
  | localSet (k v : String)
  | localsDiag
  | cacheLoaded
  | cacheSaved
  | timeoutDiag
  | interruptDiag
  | errorDiag
  | termRestored
deriving Repr, DecidableEq

/-- Outcome of the final `subprocess.run` in `execute`: normal completion
(with return code and stdout shape, used by the set-locals path), a
timeout, a user interrupt, or any other exception. -/
inductive ExecOutcome where
  | completed (returncode : Int) (stdout : StdoutShape)
  | timedOut
  | interrupted
  | raisedErr
deriving Repr, DecidableEq

/-- One node of a matched command chain, with the fields `execute` reads:
its command template, its `set_locals` flag, and — meaningful only on a
root `CommandConfig` — the strict flag and timeout.  `isRootCommand`
models `isinstance(root_cmd, CommandConfig)`. -/
structure ChainNode where
  command : List TmplPart
  set_locals : Bool := false
  strict : Bool := false
  timeout : Int := 0
  isRootCommand : Bool := false
deriving Repr, DecidableEq

/-- `" ".join` of the chain's command templates, at the template-part
level. -/
def joinTemplates : List (List TmplPart) → List TmplPart
  | [] => []
  | [t] => t
  | t :: rest => t ++ [TmplPart.lit " "] ++ joinTemplates rest

/-- `" ".join` of plain strings. -/
def joinSpace : List String → String
  | [] => ""
  | [s] => s
  | s :: rest => s ++ " " ++ joinSpace rest

/-- The character class `shlex.quote` treats as safe under `re.ASCII`:
ASCII word characters plus at-sign, percent, plus, equals, colon, comma,
dot, slash and dash. -/
def shlexSafeChar (c : Char) : Bool :=
  c.isAlphanum || c = '_' || c = '@' || c = '%' || c = '+' || c = '='
    || c = ':' || c = ',' || c = '.' || c = '/' || c = '-'

/-- `shlex.quote`: empty strings become a pair of single quotes, safe
strings pass through, anything else is wrapped in single quotes with
embedded single quotes escaped. -/
def shlexQuote (s : String) : String :=
  if s = "" then "\x27\x27"
  else if s.toList.all shlexSafeChar then s
  else "\x27" ++ (s.replace "\x27" "\x27\"\x27\"\x27") ++ "\x27"

/-- The strict-mode rejection test at the top of `execute`: the chain
root is a `CommandConfig` with `strict` set and leftover tokens remain. -/
def strictReject (chain : List ChainNode) (remaining : List String) : Bool :=
  (match chain with
   | root :: _ => root.isRootCommand && root.strict
   | [] => false) && !remaining.isEmpty

/-- `CommandExecutor.execute`: strict-mode rejection, template
concatenation, app-variable then user-variable substitution, quoting and
appending of leftover tokens, then the spawn with its aftermath — cache
reload + save only on normal completion (the set-locals branch first
validates the captured stdout and writes locals), while timeout,
interrupt and unexpected errors skip straight to the terminal-state
restore in the `finally` block. -/
def execute (cfg : Config) (world : String → SpawnOut) (fuel : Nat)
    (chain : List ChainNode) (vars : Ctx) (remaining : List String)
    (outcome : ExecOutcome) (st : RState) : List EEvent × RState :=
  if strictReject chain remaining then ([EEvent.strictDiag], st)
  else
    let fullTemplate := joinTemplates (chain.map (fun obj => obj.command))
    let sub := resolveAppVarsSt (resolveOne cfg world fuel) vars
      (some fun s k => cacheGetLocal s.cache k) fullTemplate st
    let parts2 := resolveUserVarsParts sub.1 vars
    let cmd0 := renderParts parts2
    let cmd := if remaining.isEmpty then cmd0
      else cmd0 ++ " " ++ joinSpace (remaining.map shlexQuote)
    let shouldSetLocals := chain.any fun obj => obj.set_locals
    let st1 := sub.2
    match outcome with
    | ExecOutcome.timedOut =>
      ([EEvent.termSaved, EEvent.spawned cmd shouldSetLocals,
        EEvent.timeoutDiag, EEvent.termRestored], st1)
    | ExecOutcome.interrupted =>
      ([EEvent.termSaved, EEvent.spawned cmd shouldSetLocals,
        EEvent.interruptDiag, EEvent.termRestored], st1)
    | ExecOutcome.raisedErr =>
      ([EEvent.termSaved, EEvent.spawned cmd shouldSetLocals,
        EEvent.errorDiag, EEvent.termRestored], st1)
    | ExecOutcome.completed _rc sout =>
      if shouldSetLocals then
        match sout with
        | StdoutShape.jsonOf (JShape.jsObj fields) =>
          let st2 := fields.foldl
            (fun s p => { s with cache := cacheSetLocal s.cache p.1 p.2 }) st1
          let st3 := { st2 with cache := cacheSave (cacheLoad st2.cache) }
          ([EEvent.termSaved, EEvent.spawned cmd true]
            ++ fields.map (fun p => EEvent.localSet p.1 p.2)
            ++ [EEvent.cacheLoaded, EEvent.cacheSaved, EEvent.termRestored], st3)
        | _ =>
          let st3 := { st1 with cache := cacheSave (cacheLoad st1.cache) }
          ([EEvent.termSaved, EEvent.spawned cmd true, EEvent.localsDiag,
            EEvent.cacheLoaded, EEvent.cacheSaved, EEvent.termRestored], st3)
      else
        let st3 := { st1 with cache := cacheSave (cacheLoad st1.cache) }
        ([EEvent.termSaved, EEvent.spawned cmd false,
          EEvent.cacheLoaded, EEvent.cacheSaved, EEvent.termRestored], st3)

/-! ## Association-list lemmas -/

theorem lookupStr_setAssoc {α : Type} (l : List (String × α)) (k j : String) (v : α) :
    lookupStr (setAssoc l k v) j = if j = k then some v else lookupStr l j := by
  induction l with
  | nil =>
    rcases eq_or_ne j k with h | h
    · subst h; simp [setAssoc, lookupStr]
    · simp [setAssoc, lookupStr, h, Ne.symm h]
  | cons p rest ih =>
    rcases eq_or_ne j k with h | h
    · subst h
      by_cases hp : p.1 = j
      · simp [setAssoc, lookupStr, hp]
      · simp [setAssoc, lookupStr, hp, ih]
    · by_cases hp : p.1 = k
      · have hpj : p.1 ≠ j := fun hh => h (hh ▸ hp)
        simp [setAssoc, lookupStr, hp, Ne.symm h, hpj, h]
      · by_cases hpj : p.1 = j
        · simp [setAssoc, lookupStr, hp, hpj, h]
        · simp [setAssoc, lookupStr, hp, hpj, h, ih]

theorem lookupStr_setAssoc_self {α : Type} (l : List (String × α)) (k : String) (v : α) :
    lookupStr (setAssoc l k v) k = some v := by
  simp [lookupStr_setAssoc]

theorem lookupStr_setAssoc_ne {α : Type} (l : List (String × α)) (k j : String) (v : α)
    (h : j ≠ k) : lookupStr (setAssoc l k v) j = lookupStr l j := by
  simp [lookupStr_setAssoc, h]

/-! ## Generic state lemmas for the threaded substitution -/

theorem replaceAppVarTail_snd {σ : Type} (f : String → σ → List Row × σ) (ctx : Ctx)
    (src : String) (idx : Option Nat) (key : String) (index : Nat) (s : σ) :
    (replaceAppVarTail f ctx src idx key index s).2 = s ∨
    (replaceAppVarTail f ctx src idx key index s).2 = (f src s).2 := by
  unfold replaceAppVarTail
  rcases hf : f src s with ⟨dl, st1⟩
  rcases idx with _ | n
  · rcases hc : lookupStr ctx src with _ | cv
    · right
      simp only [hc, hf]
      by_cases he : dl.isEmpty <;> simp only [he] <;> rcases dl[index]? <;> simp
    · rcases cv with r | str
      · left; simp [hc]
      · right
        simp only [hc, hf]
        by_cases he : dl.isEmpty <;> simp only [he] <;> rcases dl[index]? <;> simp
  · right
    rcases hc : lookupStr ctx src with _ | cv
    · simp only [hc, hf]
      by_cases he : dl.isEmpty <;> simp only [he] <;> rcases dl[index]? <;> simp
    · rcases cv with r | str <;>
        · simp only [hc, hf]
          by_cases he : dl.isEmpty <;> simp only [he] <;> rcases dl[index]? <;> simp

theorem replaceAppVar_snd {σ : Type} (f : String → σ → List Row × σ) (ctx : Ctx)
    (ul : Option (σ → String → Option String)) (src : String) (idx : Option Nat)
    (key : String) (s : σ) :
    (replaceAppVar f ctx ul src idx key s).2 = s ∨
    (replaceAppVar f ctx ul src idx key s).2 = (f src s).2 := by
  unfold replaceAppVar
  rcases ul with _ | g
  · simpa using replaceAppVarTail_snd f ctx src idx key (idx.getD 0) s
  · by_cases hl : src = "locals"
    · rcases hg : g s key with _ | v <;> simp [hl, hg]
    · simpa [hl] using replaceAppVarTail_snd f ctx src idx key (idx.getD 0) s

theorem resolveAppVarsSt_inv {σ : Type} (f : String → σ → List Row × σ) (ctx : Ctx)
    (ul : Option (σ → String → Option String)) (Inv : σ → Prop) (R : σ → σ → Prop)
    (hrefl : ∀ s, R s s)
    (htrans : ∀ a b c, R a b → R b c → R a c)
    (hf : ∀ n s, Inv s → R s (f n s).2 ∧ Inv (f n s).2) :
    ∀ (parts : List TmplPart) (s : σ), Inv s →
      R s (resolveAppVarsSt f ctx ul parts s).2 ∧ Inv (resolveAppVarsSt f ctx ul parts s).2 := by
  intro parts
  induction parts with
  | nil =>
    intro s hs
    simpa [resolveAppVarsSt] using ⟨hrefl s, hs⟩
  | cons p rest ih =>
    intro s hs
    cases p with
    | lit str =>
      rcases h2 : resolveAppVarsSt f ctx ul rest s with ⟨ps, s2⟩
      have hs2 := ih s hs
      rw [h2] at hs2
      simpa [resolveAppVarsSt, h2] using hs2
    | userRef n =>
      rcases h2 : resolveAppVarsSt f ctx ul rest s with ⟨ps, s2⟩
      have hs2 := ih s hs
      rw [h2] at hs2
      simpa [resolveAppVarsSt, h2] using hs2
    | appRef src idx key =>
      rcases h1 : replaceAppVar f ctx ul src idx key s with ⟨str, s1⟩
      rcases h2 : resolveAppVarsSt f ctx ul rest s1 with ⟨ps, s2⟩
      have hs1 : R s s1 ∧ Inv s1 := by
        rcases replaceAppVar_snd f ctx ul src idx key s with h | h <;> rw [h1] at h <;> simp at h
        · rw [h]; exact ⟨hrefl s, hs⟩
        · rw [h]; exact hf src s hs
      have hs2 := ih s1 hs1.2
      rw [h2] at hs2
      have hstep : resolveAppVarsSt f ctx ul (TmplPart.appRef src idx key :: rest) s
          = (TmplPart.lit str :: ps, s2) := by
        simp [resolveAppVarsSt, h1, h2]
      rw [hstep]
      exact ⟨htrans _ _ _ hs1.1 hs2.1, hs2.2⟩

/-! ## Resolver state lemmas -/

theorem cacheSave_enabled (c : CacheSt) : (cacheSave c).enabled = c.enabled := by
  unfold cacheSave; split <;> rfl

theorem cacheSetEntry_enabled (c : CacheSt) (k : String) (v : List Row) (now : Int) :
    (cacheSetEntry c k v now).enabled = c.enabled := by
  unfold cacheSetEntry; split <;> rfl

/-- The parts of the resolver state `resolve_one` always restores or never
touches: the in-progress set (popped by the `finally`), the clock, and the
cache-enabled flag. -/
def RFrame (a b : RState) : Prop :=
  b.inProg = a.inProg ∧ b.now = a.now ∧ b.cache.enabled = a.cache.enabled

theorem rframe_refl (s : RState) : RFrame s s := ⟨rfl, rfl, rfl⟩

theorem rframe_trans (a b c : RState) : RFrame a b → RFrame b c → RFrame a c :=
  fun h1 h2 => ⟨h2.1.trans h1.1, h2.2.1.trans h1.2.1, h2.2.2.trans h1.2.2⟩

theorem resolveOne_frame (cfg : Config) (world : String → SpawnOut) :
    ∀ (fuel : Nat) (name : String) (st : RState),
      RFrame st (resolveOne cfg world fuel name st).2 := by
  intro fuel
  induction fuel with
  | zero => intro name st; exact rframe_refl st
  | succ fuel ih =>
    intro name st
    rcases hm : lookupStr st.memo name with _ | rows
    · rcases hd : lookupStr cfg.dicts name with _ | rows
      · rcases hdd : lookupStr cfg.dynamic_dicts name with _ | dd
        · simpa [resolveOne, hm, hd, hdd] using rframe_refl st
        · by_cases hip : name ∈ st.inProg
          · simpa [resolveOne, hm, hd, hdd, hip] using rframe_refl st
          · rcases hcg : cacheGet st.cache name dd.cache_ttl st.now with _ | rows
            · have hsub := resolveAppVarsSt_inv (resolveOne cfg world fuel) [] none
                (fun _ => True) RFrame rframe_refl rframe_trans
                (fun n s _ => ⟨ih n s, trivial⟩) dd.command
                { st with inProg := name :: st.inProg } trivial
              rcases hs : resolveAppVarsSt (resolveOne cfg world fuel) [] none dd.command
                  { st with inProg := name :: st.inProg } with ⟨ps, s2⟩
              rw [hs] at hsub
              obtain ⟨⟨hpr, hnow, hen⟩, -⟩ := hsub
              simp only [resolveOne, hm, hd, hdd, hip, if_false, hcg, hs]
              refine ⟨?_, ?_, ?_⟩
              · rw [show s2.inProg = name :: st.inProg by simpa using hpr]
                simp
              · simpa using hnow
              · simpa [cacheSave_enabled, cacheSetEntry_enabled] using hen
            · simp only [resolveOne, hm, hd, hdd, hip, if_false, hcg]
              exact ⟨by simp, rfl, rfl⟩
      · simpa [resolveOne, hm, hd] using rframe_refl { st with memo := setAssoc st.memo name rows }
    · simpa [resolveOne, hm] using rframe_refl st

/-- Invariant of the resolver: every name on the in-progress stack was
pushed in the dynamic-dict branch, i.e. after its static-dict lookup
failed. -/
def InvDyn (cfg : Config) (s : RState) : Prop :=
  ∀ m, m ∈ s.inProg → lookupStr cfg.dicts m = none

/-- Memo evolution across one resolver call: the in-progress set is
unchanged, existing memo entries survive (the memo is write-once per
name), and a name on the in-progress stack that was not memoized cannot
become memoized. -/
def RMemo (a b : RState) : Prop :=
  b.inProg = a.inProg ∧
  (∀ k v, lookupStr a.memo k = some v → lookupStr b.memo k = some v) ∧
  (∀ m, m ∈ a.inProg → lookupStr a.memo m = none → lookupStr b.memo m = none)

theorem rmemo_refl (s : RState) : RMemo s s := ⟨rfl, fun _ _ h => h, fun _ _ h => h⟩

theorem rmemo_trans (a b c : RState) : RMemo a b → RMemo b c → RMemo a c := by
  rintro ⟨hi1, hp1, hn1⟩ ⟨hi2, hp2, hn2⟩
  refine ⟨hi2.trans hi1, fun k v h => hp2 k v (hp1 k v h), fun m hm hn => ?_⟩
  exact hn2 m (hi1 ▸ hm) (hn1 m hm hn)

theorem resolveOne_memo (cfg : Config) (world : String → SpawnOut) :
    ∀ (fuel : Nat) (name : String) (st : RState), InvDyn cfg st →
      RMemo st (resolveOne cfg world fuel name st).2 ∧
      InvDyn cfg (resolveOne cfg world fuel name st).2 := by
  intro fuel
  induction fuel with
  | zero => intro name st hInv; exact ⟨rmemo_refl st, hInv⟩
  | succ fuel ih =>
    intro name st hInv
    rcases hm : lookupStr st.memo name with _ | rows
    · rcases hd : lookupStr cfg.dicts name with _ | rows
      · rcases hdd : lookupStr cfg.dynamic_dicts name with _ | dd
        · simpa [resolveOne, hm, hd, hdd] using ⟨rmemo_refl st, hInv⟩
        · by_cases hip : name ∈ st.inProg
          · simpa [resolveOne, hm, hd, hdd, hip] using ⟨rmemo_refl st, hInv⟩
          · rcases hcg : cacheGet st.cache name dd.cache_ttl st.now with _ | rows
            · have hInv1 : InvDyn cfg { st with inProg := name :: st.inProg } := by
                intro m hmem
                rcases List.mem_cons.mp hmem with h | h
                · exact h ▸ hd
                · exact hInv m h
              have hsub := resolveAppVarsSt_inv (resolveOne cfg world fuel) [] none
                (InvDyn cfg) RMemo rmemo_refl rmemo_trans
                (fun n s hs => ih n s hs) dd.command
                { st with inProg := name :: st.inProg } hInv1
              rcases hs : resolveAppVarsSt (resolveOne cfg world fuel) [] none dd.command
                  { st with inProg := name :: st.inProg } with ⟨ps, s2⟩
              rw [hs] at hsub
              obtain ⟨⟨hpr, hkeep, hnone⟩, hInv2⟩ := hsub
              simp only at hpr hkeep hnone
              have hs2name : lookupStr s2.memo name = none :=
                hnone name (by simp) hm
              have hs2pr : s2.inProg = name :: st.inProg := hpr
              simp only [resolveOne, hm, hd, hdd, hip, if_false, hcg, hs]
              constructor
              · refine ⟨?_, ?_, ?_⟩
                · simp [hs2pr]
                · intro k v h
                  have hk : k ≠ name := fun hkn => by rw [hkn, hm] at h; exact Option.noConfusion h
                  simp only [lookupStr_setAssoc, hk, if_false]
                  exact hkeep k v h
                · intro m hmem hmn
                  have hk : m ≠ name := fun hkn => hip (hkn ▸ hmem)
                  simp only [lookupStr_setAssoc, hk, if_false]
                  exact hnone m (by simp [hmem]) hmn
              · intro m hmem
                simp only [hs2pr] at hmem
                rw [List.erase_cons_head] at hmem
                exact hInv m hmem
            · simp only [resolveOne, hm, hd, hdd, hip, if_false, hcg]
              constructor
              · refine ⟨by simp, ?_, ?_⟩
                · intro k v h
                  have hk : k ≠ name := fun hkn => by rw [hkn, hm] at h; exact Option.noConfusion h
                  simp only [lookupStr_setAssoc, hk, if_false]
                  exact h
                · intro m hmem hmn
                  have hk : m ≠ name := fun hkn => hip (hkn ▸ hmem)
                  simp only [lookupStr_setAssoc, hk, if_false]
                  exact hmn
              · intro m hmem
                simp only [List.erase_cons_head] at hmem
                exact hInv m hmem
      · simp only [resolveOne, hm, hd]
        constructor
        · refine ⟨rfl, ?_, ?_⟩
          · intro k v h
            have hk : k ≠ name := fun hkn => by rw [hkn, hm] at h; exact Option.noConfusion h
            simp only [lookupStr_setAssoc, hk, if_false]
            exact h
          · intro m hmem hmn
            have hk : m ≠ name := fun hkn => by
              have := hInv m hmem
              rw [hkn, hd] at this
              exact Option.noConfusion this
            simp only [lookupStr_setAssoc, hk, if_false]
            exact hmn
        · intro m hmem
          exact hInv m hmem
    · simpa [resolveOne, hm] using ⟨rmemo_refl st, hInv⟩

/-- Spawn-log evolution across one resolver call: the in-progress set is
unchanged, the spawn log only grows at the end, and no spawn is logged
for a source that is on the in-progress stack (its cyclic calls return
early). -/
def RSpawn (a b : RState) : Prop :=
  b.inProg = a.inProg ∧ a.spawns <+: b.spawns ∧
  (∀ m, m ∈ a.inProg → spawnsFor b.spawns m = spawnsFor a.spawns m)

theorem rspawn_refl (s : RState) : RSpawn s s :=
  ⟨rfl, List.prefix_refl _, fun _ _ => rfl⟩

theorem rspawn_trans (a b c : RState) : RSpawn a b → RSpawn b c → RSpawn a c := by
  rintro ⟨hi1, hp1, hc1⟩ ⟨hi2, hp2, hc2⟩
  exact ⟨hi2.trans hi1, hp1.trans hp2,
    fun m hm => (hc2 m (hi1 ▸ hm)).trans (hc1 m hm)⟩

theorem spawnsFor_append (l1 l2 : List (String × String)) (m : String) :
    spawnsFor (l1 ++ l2) m = spawnsFor l1 m + spawnsFor l2 m := by
  simp [spawnsFor, List.filter_append]

theorem spawnsFor_single_ne (p : String × String) (m : String) (h : p.1 ≠ m) :
    spawnsFor [p] m = 0 := by
  simp [spawnsFor, h]

theorem spawnsFor_single_eq (p : String × String) (m : String) (h : p.1 = m) :
    spawnsFor [p] m = 1 := by
  simp [spawnsFor, h]

theorem resolveOne_spawns (cfg : Config) (world : String → SpawnOut) :
    ∀ (fuel : Nat) (name : String) (st : RState),
      RSpawn st (resolveOne cfg world fuel name st).2 := by
  intro fuel
  induction fuel with
  | zero => intro name st; exact rspawn_refl st
  | succ fuel ih =>
    intro name st
    rcases hm : lookupStr st.memo name with _ | rows
    · rcases hd : lookupStr cfg.dicts name with _ | rows
      · rcases hdd : lookupStr cfg.dynamic_dicts name with _ | dd
        · simpa [resolveOne, hm, hd, hdd] using rspawn_refl st
        · by_cases hip : name ∈ st.inProg
          · simpa [resolveOne, hm, hd, hdd, hip] using rspawn_refl st
          · rcases hcg : cacheGet st.cache name dd.cache_ttl st.now with _ | rows
            · have hsub := resolveAppVarsSt_inv (resolveOne cfg world fuel) [] none
                (fun _ => True) RSpawn rspawn_refl rspawn_trans
                (fun n s _ => ⟨ih n s, trivial⟩) dd.command
                { st with inProg := name :: st.inProg } trivial
              rcases hs : resolveAppVarsSt (resolveOne cfg world fuel) [] none dd.command
                  { st with inProg := name :: st.inProg } with ⟨ps, s2⟩
              rw [hs] at hsub
              obtain ⟨⟨hpr, hpre, hcnt⟩, -⟩ := hsub
              simp only at hpr hpre hcnt
              simp only [resolveOne, hm, hd, hdd, hip, if_false, hcg, hs]
              refine ⟨by simp [hpr], ?_, ?_⟩
              · exact hpre.trans (List.prefix_append _ _)
              · intro m hmem
                have hmn : m ≠ name := fun h => hip (h ▸ hmem)
                simp only [spawnsFor_append]
                rw [spawnsFor_single_ne _ m (by simpa using hmn.symm)]
                have := hcnt m (by simp [hmem])
                simpa using this
            · simp only [resolveOne, hm, hd, hdd, hip, if_false, hcg]
              exact ⟨by simp, List.prefix_refl _, fun _ _ => rfl⟩
      · simp only [resolveOne, hm, hd]
        exact ⟨rfl, List.prefix_refl _, fun _ _ => rfl⟩
    · simpa [resolveOne, hm] using rspawn_refl st

/-- Unfolding `resolve_one` on a memo hit: the rows come back and the
state is untouched. -/
theorem resolveOne_memoHit (cfg : Config) (world : String → SpawnOut) (fuel : Nat)
    (name : String) (st : RState) (rows : List Row)
    (h : lookupStr st.memo name = some rows) :
    resolveOne cfg world (fuel + 1) name st = (rows, st) := by
  simp [resolveOne, h]

/-- Unfolding `resolve_one` on a dynamic source with a valid cache entry:
the cached rows are memoized and returned; nothing is spawned. -/
theorem resolveOne_cacheHit (cfg : Config) (world : String → SpawnOut) (fuel : Nat)
    (name : String) (st : RState) (dd : DynamicDictConfig) (rows : List Row)
    (hm : lookupStr st.memo name = none)
    (hd : lookupStr cfg.dicts name = none)
    (hdd : lookupStr cfg.dynamic_dicts name = some dd)
    (hip : name ∉ st.inProg)
    (hcg : cacheGet st.cache name dd.cache_ttl st.now = some rows) :
    resolveOne cfg world (fuel + 1) name st
      = (rows, { st with memo := setAssoc st.memo name rows }) := by
  simp [resolveOne, hm, hd, hdd, hip, hcg]

/-- Unfolding `resolve_one` on a dynamic source with a cache miss: the
command template is substituted (recursively resolving references), the
command is spawned, the resulting rows are cached with the current
timestamp, the cache is saved to disk, and the rows are memoized; the
in-progress set is popped on exit. -/
theorem resolveOne_cacheMiss (cfg : Config) (world : String → SpawnOut) (fuel : Nat)
    (name : String) (st : RState) (dd : DynamicDictConfig)
    (hm : lookupStr st.memo name = none)
    (hd : lookupStr cfg.dicts name = none)
    (hdd : lookupStr cfg.dynamic_dicts name = some dd)
    (hip : name ∉ st.inProg)
    (hcg : cacheGet st.cache name dd.cache_ttl st.now = none) :
    resolveOne cfg world (fuel + 1) name st =
      (let sub := resolveAppVarsSt (resolveOne cfg world fuel) [] none dd.command
          { st with inProg := name :: st.inProg }
       let cmd := renderParts sub.1
       let rows := execResultRows dd.mapping (world cmd)
       (rows, { cache := cacheSave (cacheSetEntry sub.2.cache name rows sub.2.now),
                memo := setAssoc sub.2.memo name rows,
                inProg := sub.2.inProg.erase name,
                spawns := sub.2.spawns ++ [(name, cmd)],
                now := sub.2.now })) := by
  simp [resolveOne, hm, hd, hdd, hip, hcg]

/-- Unfolding `resolve_one` on a cyclic call: a name already on the
in-progress stack returns empty rows immediately, with the state
untouched and nothing memoized. -/
theorem resolveOne_cycle (cfg : Config) (world : String → SpawnOut) (fuel : Nat)
    (name : String) (st : RState) (dd : DynamicDictConfig)
    (hm : lookupStr st.memo name = none)
    (hd : lookupStr cfg.dicts name = none)
    (hdd : lookupStr cfg.dynamic_dicts name = some dd)
    (hip : name ∈ st.inProg) :
    resolveOne cfg world (fuel + 1) name st = ([], st) := by
  simp [resolveOne, hm, hd, hdd, hip]

/-! ## Shared concrete fixtures -/

/-- An enabled cache manager over an empty document with no file on
disk. -/
def cacheEnabledEmpty : CacheSt := { enabled := true, mem := CacheDoc.empty, disk := none }

/-- A fresh resolver state at a given clock time. -/
def rstateInit (now : Int) : RState :=
  { cache := cacheEnabledEmpty, memo := [], inProg := [], spawns := [], now := now }

/-- Resolving an uncached dynamic source spawns its backing command
exactly once, memoizes the produced rows, and an immediately following
call for the same name is a pure memo hit. -/
theorem resolveOne_miss_once (cfg : Config) (world : String → SpawnOut)
    (fuel : Nat) (name : String) (st : RState) (dd : DynamicDictConfig)
    (hm : lookupStr st.memo name = none)
    (hd : lookupStr cfg.dicts name = none)
    (hdd : lookupStr cfg.dynamic_dicts name = some dd)
    (hip : st.inProg = [])
    (hcg : cacheGet st.cache name dd.cache_ttl st.now = none) :
    spawnsFor (resolveOne cfg world (fuel + 1) name st).2.spawns name
        = spawnsFor st.spawns name + 1 ∧
    resolveOne cfg world (fuel + 1) name ((resolveOne cfg world (fuel + 1) name st).2)
        = resolveOne cfg world (fuel + 1) name st := by
  have hip2 : name ∉ st.inProg := by simp [hip]
  rcases hs : resolveAppVarsSt (resolveOne cfg world fuel) [] none dd.command
      { st with inProg := name :: st.inProg } with ⟨ps, s2⟩
  have hsub := resolveAppVarsSt_inv (resolveOne cfg world fuel) [] none
      (fun _ => True) RSpawn rspawn_refl rspawn_trans
      (fun n s _ => ⟨resolveOne_spawns cfg world fuel n s, trivial⟩) dd.command
      { st with inProg := name :: st.inProg } trivial
  rw [hs] at hsub
  obtain ⟨⟨hpr, -, hcnt⟩, -⟩ := hsub
  have hcnt1 : spawnsFor s2.spawns name = spawnsFor st.spawns name := by
    simpa using hcnt name (by simp)
  constructor
  · simp only [resolveOne, hm, hd, hdd, hip2, if_false, hcg, hs]
    rw [spawnsFor_append, hcnt1, spawnsFor_single_eq _ _ rfl]
  · have hmemo : lookupStr ((resolveOne cfg world (fuel + 1) name st).2).memo name
        = some (execResultRows dd.mapping (world (renderParts ps))) := by
      simp only [resolveOne, hm, hd, hdd, hip2, if_false, hcg, hs]
      exact lookupStr_setAssoc_self _ _ _
    rw [resolveOne_memoHit cfg world fuel name _ _ hmemo]
    simp only [resolveOne, hm, hd, hdd, hip2, if_false, hcg, hs]

/-- C3 claim theorem. -/
theorem resolve_one_twice_single_spawn (cfg : Config) (world : String → SpawnOut)
    (fuel : Nat) (name : String) (st : RState) (dd : DynamicDictConfig)
    (hm : lookupStr st.memo name = none)
    (hd : lookupStr cfg.dicts name = none)
    (hdd : lookupStr cfg.dynamic_dicts name = some dd)
    (hip : st.inProg = [])
    (hcg : cacheGet st.cache name dd.cache_ttl st.now = none) :
    spawnsFor (resolveOne cfg world (fuel + 1) name st).2.spawns name
        = spawnsFor st.spawns name + 1 ∧
    resolveOne cfg world (fuel + 1) name ((resolveOne cfg world (fuel + 1) name st).2)
        = resolveOne cfg world (fuel + 1) name st :=
  resolveOne_miss_once cfg world fuel name st dd hm hd hdd hip hcg

/-- C2 demo dynamic source: `a` whose command references `a` itself. -/
def ddSelfRef : DynamicDictConfig :=
  { name := "a",
    command := [TmplPart.lit "echo ", TmplPart.appRef "a" none "x"],
    mapping := [("x", "x")] }

/-- C2 demo config: the self-referencing dynamic source `a` next to an
unrelated static source `b`. -/
def cfgSelfRef : Config :=
  { dicts := [("b", [[("k", "v")]])], dynamic_dicts := [("a", ddSelfRef)] }

/-- C2 demo oracle: every spawned command fails. -/
def worldAllFail : String → SpawnOut := fun _ => SpawnOut.raisedErr

/-- C2 claim theorem. -/
theorem self_reference_resolves_empty :
    (∀ (cfg : Config) (world : String → SpawnOut) (fuel : Nat) (name : String)
       (st : RState) (dd : DynamicDictConfig),
       lookupStr st.memo name = none →
       lookupStr cfg.dicts name = none →
       lookupStr cfg.dynamic_dicts name = some dd →
       name ∈ st.inProg →
       resolveOne cfg world (fuel + 1) name st = ([], st)) ∧
    (∀ (cfg : Config) (world : String → SpawnOut) (fuel : Nat) (name : String)
       (st : RState), ((resolveOne cfg world fuel name st).2).inProg = st.inProg) ∧
    ((resolveOne cfgSelfRef worldAllFail 2 "a" (rstateInit 0)).2.inProg = [] ∧
     resolveOne cfgSelfRef worldAllFail 2 "a" (rstateInit 0)
        = resolveOne cfgSelfRef worldAllFail 3 "a" (rstateInit 0) ∧
     (resolveOne cfgSelfRef worldAllFail 2 "b"
        (resolveOne cfgSelfRef worldAllFail 2 "a" (rstateInit 0)).2).1 = [[("k", "v")]]) := by
  refine ⟨?_, ?_, ?_, ?_, ?_⟩
  · intro cfg world fuel name st dd hm hd hdd hip
    exact resolveOne_cycle cfg world fuel name st dd hm hd hdd hip
  · intro cfg world fuel name st
    exact (resolveOne_frame cfg world fuel name st).1
  · decide
  · decide
  · decide

/-- C8 claim theorem. -/
theorem cache_ttl_controls_reexecution :
    (∀ (c : CacheSt) (name : String) (t ttl now : Int) (rows : List Row),
       c.enabled = true →
       lookupStr c.mem.entries name = some ⟨t, some rows⟩ →
       (now - t ≤ ttl → cacheGet c name ttl now = some rows) ∧
       (now - t > ttl → cacheGet c name ttl now = none)) ∧
    (∀ (cfg : Config) (world : String → SpawnOut) (fuel : Nat) (name : String)
       (st : RState) (dd : DynamicDictConfig),
       lookupStr st.memo name = none →
       lookupStr cfg.dicts name = none →
       lookupStr cfg.dynamic_dicts name = some dd →
       st.inProg = [] →
       (cacheGet st.cache name dd.cache_ttl st.now = none →
          spawnsFor (resolveOne cfg world (fuel + 1) name st).2.spawns name
            = spawnsFor st.spawns name + 1) ∧
       (∀ rows, cacheGet st.cache name dd.cache_ttl st.now = some rows →
          resolveOne cfg world (fuel + 1) name st
            = (rows, { st with memo := setAssoc st.memo name rows }))) := by
  constructor
  · intro c name t ttl now rows hen hl
    constructor
    · intro hle
      simp [cacheGet, hen, hl, not_lt.mpr hle]
    · intro hgt
      simp [cacheGet, hen, hl, hgt]
  · intro cfg world fuel name st dd hm hd hdd hip
    constructor
    · intro hcg
      exact (resolveOne_miss_once cfg world fuel name st dd hm hd hdd hip hcg).1
    · intro rows hcg
      exact resolveOne_cacheHit cfg world fuel name st dd rows hm hd hdd (by simp [hip]) hcg

/-- The failure modes of a dynamic-source spawn enumerated by
`_execute_dynamic_source`: timeout, unexpected exception, non-zero exit
code, empty stdout, or stdout that is not valid JSON. -/
def spawnFailed : SpawnOut → Bool
  | SpawnOut.timedOut => true
  | SpawnOut.raisedErr => true
  | SpawnOut.ran rc sout =>
    decide (rc ≠ 0) || decide (sout = StdoutShape.emptyOut)
      || decide (sout = StdoutShape.invalidJson)

theorem execResultRows_failed (mapping : List (String × String)) (out : SpawnOut)
    (h : spawnFailed out = true) : execResultRows mapping out = [] := by
  cases out with
  | timedOut => rfl
  | raisedErr => rfl
  | ran rc sout =>
    by_cases hrc : rc = 0
    · subst hrc
      simp [spawnFailed] at h
      rcases h with h | h <;> subst h <;> rfl
    · simp [execResultRows, hrc]

theorem cacheSave_mem (c : CacheSt) : (cacheSave c).mem = c.mem := by
  unfold cacheSave; split <;> rfl

theorem cacheSave_disk (c : CacheSt) (h : c.enabled = true) :
    (cacheSave c).disk = some c.mem := by
  simp [cacheSave, h]

theorem cacheSetEntry_entries (c : CacheSt) (k : String) (v : List Row) (now : Int)
    (h : c.enabled = true) :
    (cacheSetEntry c k v now).mem.entries = setAssoc c.mem.entries k ⟨now, some v⟩ := by
  simp [cacheSetEntry, h]

/-- C10 claim theorem. -/
theorem failed_source_caches_empty_rows (cfg : Config) (world : String → SpawnOut)
    (fuel : Nat) (name : String) (st : RState) (dd : DynamicDictConfig)
    (hm : lookupStr st.memo name = none)
    (hd : lookupStr cfg.dicts name = none)
    (hdd : lookupStr cfg.dynamic_dicts name = some dd)
    (hip : st.inProg = [])
    (hcg : cacheGet st.cache name dd.cache_ttl st.now = none)
    (hen : st.cache.enabled = true)
    (hworld : ∀ c, spawnFailed (world c) = true) :
    (resolveOne cfg world (fuel + 1) name st).1 = [] ∧
    lookupStr (resolveOne cfg world (fuel + 1) name st).2.cache.mem.entries name
        = some ⟨st.now, some []⟩ ∧
    (resolveOne cfg world (fuel + 1) name st).2.cache.disk
        = some (resolveOne cfg world (fuel + 1) name st).2.cache.mem ∧
    lookupStr (resolveOne cfg world (fuel + 1) name st).2.memo name = some [] ∧
    resolveOne cfg world (fuel + 1) name ((resolveOne cfg world (fuel + 1) name st).2)
        = ([], (resolveOne cfg world (fuel + 1) name st).2) ∧
    (∀ (fuel2 : Nat) (st2 : RState),
       lookupStr st2.memo name = none → st2.inProg = [] → st2.cache.enabled = true →
       lookupStr st2.cache.mem.entries name = some ⟨st.now, some []⟩ →
       st2.now - st.now ≤ dd.cache_ttl →
       resolveOne cfg world (fuel2 + 1) name st2
         = ([], { st2 with memo := setAssoc st2.memo name [] })) := by
  have hip2 : name ∉ st.inProg := by simp [hip]
  rcases hs : resolveAppVarsSt (resolveOne cfg world fuel) [] none dd.command
      { st with inProg := name :: st.inProg } with ⟨ps, s2⟩
  have hsub := resolveAppVarsSt_inv (resolveOne cfg world fuel) [] none
      (fun _ => True) RFrame rframe_refl rframe_trans
      (fun n s _ => ⟨resolveOne_frame cfg world fuel n s, trivial⟩) dd.command
      { st with inProg := name :: st.inProg } trivial
  rw [hs] at hsub
  obtain ⟨⟨-, hnow, hen2⟩, -⟩ := hsub
  simp only at hnow hen2
  have hen2a : s2.cache.enabled = true := by rw [hen2]; exact hen
  have hrows : execResultRows dd.mapping (world (renderParts ps)) = [] :=
    execResultRows_failed _ _ (hworld _)
  refine ⟨?_, ?_, ?_, ?_, ?_, ?_⟩
  · simp only [resolveOne, hm, hd, hdd, hip2, if_false, hcg, hs]
    exact hrows
  · simp only [resolveOne, hm, hd, hdd, hip2, if_false, hcg, hs]
    rw [cacheSave_mem, cacheSetEntry_entries _ _ _ _ hen2a, lookupStr_setAssoc_self,
      hrows, hnow]
  · simp only [resolveOne, hm, hd, hdd, hip2, if_false, hcg, hs]
    rw [cacheSave_disk _ (by rw [cacheSetEntry_enabled]; exact hen2a), cacheSave_mem]
  · simp only [resolveOne, hm, hd, hdd, hip2, if_false, hcg, hs]
    rw [lookupStr_setAssoc_self, hrows]
  · have hmemo : lookupStr ((resolveOne cfg world (fuel + 1) name st).2).memo name
        = some [] := by
      simp only [resolveOne, hm, hd, hdd, hip2, if_false, hcg, hs]
      rw [lookupStr_setAssoc_self, hrows]
    have := resolveOne_memoHit cfg world fuel name _ _ hmemo
    rw [this]
  · intro fuel2 st2 hm2 hip22 hen22 hl2 hle2
    have hcg2 : cacheGet st2.cache name dd.cache_ttl st2.now = some [] := by
      simp [cacheGet, hen22, hl2, not_lt.mpr hle2]
    exact resolveOne_cacheHit cfg world fuel2 name st2 dd [] hm2 hd hdd
      (by simp [hip22]) hcg2

/-! ## Claims about substitution and matching -/

/-- A config with no sources at all. -/
def cfgEmpty : Config := { dicts := [], dynamic_dicts := [] }

/-- C5 demo config: the static source `envs` of the spec example. -/
def cfgEnvs : Config :=
  { dicts := [("envs",
      [[("name", "dev"), ("url", "u1")], [("name", "prod"), ("url", "u2")]])],
    dynamic_dicts := [] }

/-- C5 claim theorem. -/
theorem list_mode_reuses_bound_row :
    (∀ (σ : Type) (resolver : String → σ → List Row × σ) (ctx : Ctx)
       (ul : Option (σ → String → Option String)) (src key v : String) (row : Row)
       (rest : List TmplPart) (st : σ),
       src ≠ "locals" →
       lookupStr ctx src = some (CtxVal.vrow row) →
       lookupStr row key = some v →
       resolveAppVarsSt resolver ctx ul (TmplPart.appRef src none key :: rest) st
         = (TmplPart.lit v :: (resolveAppVarsSt resolver ctx ul rest st).1,
            (resolveAppVarsSt resolver ctx ul rest st).2)) ∧
    ((matchAliasParts cfgEnvs worldAllFail 1
        [AliasTok.static "consume", AliasTok.appVar "envs" none "name"]
        ["consume", "dev"] (rstateInit 0)).1
      = (true, [("envs", CtxVal.vrow [("name", "dev"), ("url", "u1")])], false)) ∧
    ((resolveAppVarsSt (resolveOne cfgEnvs worldAllFail 1)
        [("envs", CtxVal.vrow [("name", "dev"), ("url", "u1")])]
        (some fun s k => cacheGetLocal s.cache k)
        [TmplPart.appRef "envs" none "url"]
        (matchAliasParts cfgEnvs worldAllFail 1
          [AliasTok.static "consume", AliasTok.appVar "envs" none "name"]
          ["consume", "dev"] (rstateInit 0)).2).1
      = [TmplPart.lit "u1"]) := by
  refine ⟨?_, ?_, ?_⟩
  · intro σ resolver ctx ul src key v row rest st hl hctx hkey
    rcases h2 : resolveAppVarsSt resolver ctx ul rest st with ⟨ps, s2⟩
    cases ul with
    | none => simp [resolveAppVarsSt, replaceAppVar, replaceAppVarTail, hctx, hkey, h2]
    | some f => simp [resolveAppVarsSt, replaceAppVar, replaceAppVarTail, hl, hctx, hkey, h2]
  · decide
  · decide

/-- C6 claim theorem. -/
theorem help_flag_matching :
    (∀ (cfg : Config) (world : String → SpawnOut) (fuel : Nat) (n u : String)
       (rest : List (AliasTok × String)) (vars : Ctx) (st : RState),
       isHelpTok u = true →
       matchLoop cfg world fuel ((AliasTok.userVar n, u) :: rest) vars st
         = (MatchStep.helpFound vars, st)) ∧
    (∀ (cfg : Config) (world : String → SpawnOut) (fuel : Nat) (src : String)
       (idx : Option Nat) (key u : String) (rest : List (AliasTok × String))
       (vars : Ctx) (st : RState),
       isHelpTok u = true →
       matchLoop cfg world fuel ((AliasTok.appVar src idx key, u) :: rest) vars st
         = (MatchStep.helpFound vars, st)) ∧
    (∀ (cfg : Config) (world : String → SpawnOut) (fuel : Nat) (s u : String)
       (rest : List (AliasTok × String)) (vars : Ctx) (st : RState),
       s ≠ u →
       matchLoop cfg world fuel ((AliasTok.static s, u) :: rest) vars st
         = (MatchStep.failed, st)) ∧
    ((matchAliasParts cfgEmpty worldAllFail 1
        [AliasTok.static "pg", AliasTok.userVar "db"] ["pg", "-h"] (rstateInit 0)).1
      = (true, [], true)) ∧
    ((matchAliasParts cfgEmpty worldAllFail 1
        [AliasTok.static "static", AliasTok.static "sub"] ["static", "-h"] (rstateInit 0)).1
      = (false, [], false)) := by
  refine ⟨?_, ?_, ?_, ?_, ?_⟩
  · intro cfg world fuel n u rest vars st hu
    simp [matchLoop, hu]
  · intro cfg world fuel src idx key u rest vars st hu
    simp [matchLoop, hu]
  · intro cfg world fuel s u rest vars st hs
    simp [matchLoop, hs]
  · decide
  · decide

/-! ## Claims about the executor -/

/-- The fully substituted command line built by `execute` before leftover
tokens are appended: the space-joined chain templates after the
app-variable pass (with locals lookup and the matcher's variables as
context) and the user-variable pass. -/
def substitutedCmd (cfg : Config) (world : String → SpawnOut) (fuel : Nat)
    (chain : List ChainNode) (vars : Ctx) (st : RState) : String :=
  renderParts (resolveUserVarsParts
    (resolveAppVarsSt (resolveOne cfg world fuel) vars
      (some fun s k => cacheGetLocal s.cache k)
      (joinTemplates (chain.map fun obj => obj.command)) st).1 vars)

/-- C7 claim theorem. -/
theorem strict_blocks_spawn_nonstrict_appends_quoted :
    (∀ (cfg : Config) (world : String → SpawnOut) (fuel : Nat) (root : ChainNode)
       (rest : List ChainNode) (vars : Ctx) (remaining : List String)
       (outcome : ExecOutcome) (st : RState),
       root.isRootCommand = true → root.strict = true → remaining ≠ [] →
       execute cfg world fuel (root :: rest) vars remaining outcome st
           = ([EEvent.strictDiag], st) ∧
       (∀ c b, EEvent.spawned c b
           ∉ (execute cfg world fuel (root :: rest) vars remaining outcome st).1)) ∧
    (∀ (cfg : Config) (world : String → SpawnOut) (fuel : Nat) (root : ChainNode)
       (rest : List ChainNode) (vars : Ctx) (remaining : List String)
       (outcome : ExecOutcome) (st : RState),
       (root.isRootCommand && root.strict) = false → remaining ≠ [] →
       EEvent.spawned
           (substitutedCmd cfg world fuel (root :: rest) vars st ++ " "
             ++ joinSpace (remaining.map shlexQuote))
           ((root :: rest).any fun o => o.set_locals)
         ∈ (execute cfg world fuel (root :: rest) vars remaining outcome st).1) := by
  constructor
  · intro cfg world fuel root rest vars remaining outcome st hroot hstrict hrem
    have hne : remaining.isEmpty = false := by
      cases remaining with
      | nil => exact absurd rfl hrem
      | cons a l => rfl
    have hsr : strictReject (root :: rest) remaining = true := by
      simp [strictReject, hroot, hstrict, hne]
    constructor
    · simp [execute, hsr]
    · intro c b
      simp [execute, hsr]
  · intro cfg world fuel root rest vars remaining outcome st hsr hrem
    have hne : remaining.isEmpty = false := by
      cases remaining with
      | nil => exact absurd rfl hrem
      | cons a l => rfl
    have hsr2 : strictReject (root :: rest) remaining = false := by
      simp [strictReject, hsr]
    rcases hs : resolveAppVarsSt (resolveOne cfg world fuel) vars
        (some fun s k => cacheGetLocal s.cache k)
        (joinTemplates ((root :: rest).map fun obj => obj.command)) st with ⟨ps, s2⟩
    simp only [List.map_cons] at hs
    have hcmd : substitutedCmd cfg world fuel (root :: rest) vars st
        = renderParts (resolveUserVarsParts ps vars) := by
      simp [substitutedCmd, hs]
    rw [hcmd]
    cases outcome with
    | timedOut => simp [execute, hsr2, hs, hne]
    | interrupted => simp [execute, hsr2, hs, hne]
    | raisedErr => simp [execute, hsr2, hs, hne]
    | completed rc sout =>
      by_cases hsl : ((root :: rest).any fun o => o.set_locals) = true
      · cases sout with
        | emptyOut => simp [execute, hsr2, hs, hne, hsl]
        | invalidJson => simp [execute, hsr2, hs, hne, hsl]
        | jsonOf v =>
          cases v with
          | jsObj fields => simp [execute, hsr2, hs, hne, hsl]
          | jsArr objs => simp [execute, hsr2, hs, hne, hsl]
      · have hsl2 : ((root :: rest).any fun o => o.set_locals) = false := by
          simpa using hsl
        simp [execute, hsr2, hs, hne, hsl2]

/-- A one-node chain running a fixed command, used as the C1
counterexample input. -/
def chainEcho : List ChainNode :=
  [{ command := [TmplPart.lit "echo hi"], set_locals := false, strict := false,
     timeout := 0, isRootCommand := true }]

/-- C1 counterexample. -/
theorem execute_timeout_skips_cache_sync :
    (execute cfgEmpty worldAllFail 1 chainEcho [] [] ExecOutcome.timedOut (rstateInit 0)).1
        = [EEvent.termSaved, EEvent.spawned "echo hi" false,
           EEvent.timeoutDiag, EEvent.termRestored] ∧
    EEvent.cacheLoaded
        ∉ (execute cfgEmpty worldAllFail 1 chainEcho [] [] ExecOutcome.timedOut (rstateInit 0)).1 ∧
    EEvent.cacheSaved
        ∉ (execute cfgEmpty worldAllFail 1 chainEcho [] [] ExecOutcome.timedOut (rstateInit 0)).1 := by
  decide

/-- C1 amended claim theorem. -/
theorem cache_reload_save_only_on_completion (cfg : Config) (world : String → SpawnOut)
    (fuel : Nat) (chain : List ChainNode) (vars : Ctx) (remaining : List String)
    (st : RState) (h : strictReject chain remaining = false) :
    (∀ (rc : Int) (sout : StdoutShape), ∃ c b mids,
        (execute cfg world fuel chain vars remaining (ExecOutcome.completed rc sout) st).1
          = EEvent.termSaved :: EEvent.spawned c b
              :: (mids ++ [EEvent.cacheLoaded, EEvent.cacheSaved, EEvent.termRestored])) ∧
    (∀ outcome : ExecOutcome,
        (outcome = ExecOutcome.timedOut ∨ outcome = ExecOutcome.interrupted
          ∨ outcome = ExecOutcome.raisedErr) →
        EEvent.cacheLoaded ∉ (execute cfg world fuel chain vars remaining outcome st).1 ∧
        EEvent.cacheSaved ∉ (execute cfg world fuel chain vars remaining outcome st).1) := by
  rcases hs : resolveAppVarsSt (resolveOne cfg world fuel) vars
      (some fun s k => cacheGetLocal s.cache k)
      (joinTemplates (chain.map fun obj => obj.command)) st with ⟨ps, s2⟩
  constructor
  · intro rc sout
    by_cases hsl : (chain.any fun o => o.set_locals) = true
    · cases sout with
      | emptyOut =>
        refine ⟨if remaining.isEmpty then substitutedCmd cfg world fuel chain vars st
            else substitutedCmd cfg world fuel chain vars st ++ " "
              ++ joinSpace (remaining.map shlexQuote), true, [EEvent.localsDiag], ?_⟩
        simp [execute, substitutedCmd, h, hs, hsl]
      | invalidJson =>
        refine ⟨if remaining.isEmpty then substitutedCmd cfg world fuel chain vars st
            else substitutedCmd cfg world fuel chain vars st ++ " "
              ++ joinSpace (remaining.map shlexQuote), true, [EEvent.localsDiag], ?_⟩
        simp [execute, substitutedCmd, h, hs, hsl]
      | jsonOf v =>
        cases v with
        | jsObj fields =>
          refine ⟨if remaining.isEmpty then substitutedCmd cfg world fuel chain vars st
              else substitutedCmd cfg world fuel chain vars st ++ " "
                ++ joinSpace (remaining.map shlexQuote), true,
              fields.map fun p => EEvent.localSet p.1 p.2, ?_⟩
          simp [execute, substitutedCmd, h, hs, hsl]
        | jsArr objs =>
          refine ⟨if remaining.isEmpty then substitutedCmd cfg world fuel chain vars st
              else substitutedCmd cfg world fuel chain vars st ++ " "
                ++ joinSpace (remaining.map shlexQuote), true, [EEvent.localsDiag], ?_⟩
          simp [execute, substitutedCmd, h, hs, hsl]
    · have hsl2 : (chain.any fun o => o.set_locals) = false := by simpa using hsl
      refine ⟨if remaining.isEmpty then substitutedCmd cfg world fuel chain vars st
          else substitutedCmd cfg world fuel chain vars st ++ " "
            ++ joinSpace (remaining.map shlexQuote), false, [], ?_⟩
      simp [execute, substitutedCmd, h, hs, hsl2]
  · intro outcome ho
    rcases ho with ho | ho | ho <;> subst ho <;>
      constructor <;> simp [execute, h, hs]

/-! ## Claims about the history bound -/

/-- The last `n` elements of a list. -/
def takeLastN (l : List String) (n : Nat) : List String := l.drop (l.length - n)

theorem takeLastN_length (l : List String) (n : Nat) :
    (takeLastN l n).length = min n l.length := by
  simp [takeLastN]
  omega

theorem takeLastN_all (l : List String) (n : Nat) (h : l.length ≤ n) :
    takeLastN l n = l := by
  simp [takeLastN, Nat.sub_eq_zero_of_le h]

theorem takeLastN_takeLastN (l : List String) (n m : Nat) (h : m ≤ n) :
    takeLastN (takeLastN l n) m = takeLastN l m := by
  simp only [takeLastN, List.drop_drop, List.length_drop]
  congr 1
  omega

theorem takeLastN_append_long (a b : List String) (n : Nat) (h : n ≤ b.length) :
    takeLastN (a ++ b) n = takeLastN b n := by
  simp only [takeLastN, List.length_append]
  rw [show a.length + b.length - n = a.length + (b.length - n) by omega]
  exact List.drop_append (b.length - n)

theorem takeLastN_append_short (a b : List String) (n : Nat) (h : b.length ≤ n) :
    takeLastN (a ++ b) n = takeLastN a (n - b.length) ++ b := by
  simp only [takeLastN, List.length_append]
  rw [show a.length + b.length - n = a.length - (n - b.length) by omega]
  exact List.drop_append_of_le_length (by omega)

theorem takeLastN_concat (l l2 : List String) (n : Nat) :
    takeLastN (takeLastN l n ++ l2) n = takeLastN (l ++ l2) n := by
  by_cases hb : n ≤ l2.length
  · rw [takeLastN_append_long _ _ _ hb, takeLastN_append_long _ _ _ hb]
  · push_neg at hb
    rw [takeLastN_append_short _ _ _ (le_of_lt hb),
      takeLastN_append_short _ _ _ (le_of_lt hb),
      takeLastN_takeLastN _ _ _ (by omega)]

theorem addHistory_enabled (c : CacheSt) (cmd : String) (limit : Int) :
    (addHistory c cmd limit).enabled = c.enabled := by
  unfold addHistory; split <;> rfl

/-- For a positive limit, one `add_history` call leaves exactly the last
`limit` elements of the appended history. -/
theorem addHistory_takeLastN (c : CacheSt) (cmd : String) (limit : Int)
    (hen : c.enabled = true) (hpos : 1 ≤ limit) :
    (addHistory c cmd limit).mem.history
      = takeLastN (c.mem.history ++ [cmd]) limit.toNat := by
  simp only [addHistory, hen, if_true]
  by_cases hlen : ((c.mem.history ++ [cmd]).length : Int) > limit
  · simp only [hlen, if_true, pySliceLast, hpos, Int.lt_iff_add_one_le,
      takeLastN]
    rw [if_pos (by omega)]
  · simp only [hlen, if_false]
    rw [takeLastN_all]
    omega

theorem foldl_addHistory (limit : Int) (hpos : 1 ≤ limit) :
    ∀ (cmds : List String) (c : CacheSt), c.enabled = true →
      c.mem.history.length ≤ limit.toNat →
      (cmds.foldl (fun acc cmd => addHistory acc cmd limit) c).mem.history
        = takeLastN (c.mem.history ++ cmds) limit.toNat := by
  intro cmds
  induction cmds with
  | nil =>
    intro c hen hlen
    simp [takeLastN_all _ _ (by simpa using hlen)]
  | cons cmd cmds ih =>
    intro c hen hlen
    have hstep := addHistory_takeLastN c cmd limit hen hpos
    have hen2 : (addHistory c cmd limit).enabled = true := by
      rw [addHistory_enabled]; exact hen
    have hlen2 : (addHistory c cmd limit).mem.history.length ≤ limit.toNat := by
      rw [hstep, takeLastN_length]
      omega
    calc ((cmd :: cmds).foldl (fun acc cmd => addHistory acc cmd limit) c).mem.history
        = (cmds.foldl (fun acc cmd => addHistory acc cmd limit)
            (addHistory c cmd limit)).mem.history := by simp
      _ = takeLastN ((addHistory c cmd limit).mem.history ++ cmds) limit.toNat :=
            ih _ hen2 hlen2
      _ = takeLastN (takeLastN (c.mem.history ++ [cmd]) limit.toNat ++ cmds) limit.toNat := by
            rw [hstep]
      _ = takeLastN ((c.mem.history ++ [cmd]) ++ cmds) limit.toNat := takeLastN_concat _ _ _
      _ = takeLastN (c.mem.history ++ (cmd :: cmds)) limit.toNat := by
            rw [List.append_assoc]; rfl

/-- C9 counterexample. -/
theorem add_history_limit_zero_unbounded :
    (addHistory (addHistory cacheEnabledEmpty "a" 0) "b" 0).mem.history = ["a", "b"] ∧
    ¬ (((addHistory (addHistory cacheEnabledEmpty "a" 0) "b" 0).mem.history.length : Int)
        ≤ 0) := by
  decide

/-- C9 amended claim theorem. -/
theorem history_keeps_last_limit_entries (cmds : List String) (limit : Int)
    (c : CacheSt) (hpos : 1 ≤ limit) (hen : c.enabled = true)
    (hempty : c.mem.history = []) :
    (cmds.foldl (fun acc cmd => addHistory acc cmd limit) c).mem.history
        = cmds.drop (cmds.length - limit.toNat) ∧
    ((cmds.length : Int) > limit →
      ((cmds.foldl (fun acc cmd => addHistory acc cmd limit) c).mem.history.length : Int)
        = limit) ∧
    (∀ v : Int, configHistorySize v ≤ 1000) := by
  have hmain := foldl_addHistory limit hpos cmds c hen (by simp [hempty])
  rw [hempty] at hmain
  simp only [List.nil_append] at hmain
  refine ⟨hmain, ?_, ?_⟩
  · intro hgt
    rw [hmain]
    simp only [takeLastN] at hmain ⊢
    rw [List.length_drop]
    omega
  · intro v
    simp [configHistorySize]

/-! ## Witnesses -/

/-- A dynamic source whose command is a literal. -/
def ddEcho : DynamicDictConfig :=
  { name := "w", command := [TmplPart.lit "echo"], mapping := [("k", "k")] }

/-- A config holding only the dynamic source `w`. -/
def cfgDyn : Config := { dicts := [], dynamic_dicts := [("w", ddEcho)] }

/-- An oracle whose every spawn succeeds with a one-object JSON body. -/
def worldRows : String → SpawnOut :=
  fun _ => SpawnOut.ran 0 (StdoutShape.jsonOf (JShape.jsObj [("k", "1")]))

/-- An enabled cache with one fresh entry for `w`. -/
def cacheWithW : CacheSt :=
  { enabled := true,
    mem := { entries := [("w", ⟨0, some [[("k", "1")]]⟩)], history := [], locals := [] },
    disk := none }

/-- A strict one-node chain. -/
def chainStrict : List ChainNode :=
  [{ command := [TmplPart.lit "run"], set_locals := false, strict := true,
     timeout := 0, isRootCommand := true }]

theorem resolve_one_twice_single_spawn_witness :
    spawnsFor (resolveOne cfgDyn worldRows 1 "w" (rstateInit 0)).2.spawns "w"
        = spawnsFor (rstateInit 0).spawns "w" + 1 ∧
    resolveOne cfgDyn worldRows 1 "w" ((resolveOne cfgDyn worldRows 1 "w" (rstateInit 0)).2)
        = resolveOne cfgDyn worldRows 1 "w" (rstateInit 0) :=
  resolve_one_twice_single_spawn cfgDyn worldRows 0 "w" (rstateInit 0) ddEcho
    (by decide) (by decide) (by decide) (by decide) (by decide)

theorem self_reference_resolves_empty_witness :
    resolveOne cfgSelfRef worldAllFail 1 "a" { rstateInit 0 with inProg := ["a"] }
        = ([], { rstateInit 0 with inProg := ["a"] }) ∧
    ((resolveOne cfgSelfRef worldAllFail 2 "a" (rstateInit 0)).2).inProg
        = (rstateInit 0).inProg :=
  ⟨self_reference_resolves_empty.1 cfgSelfRef worldAllFail 0 "a"
      { rstateInit 0 with inProg := ["a"] } ddSelfRef
      (by decide) (by decide) (by decide) (by decide),
   self_reference_resolves_empty.2.1 cfgSelfRef worldAllFail 2 "a" (rstateInit 0)⟩

theorem cache_ttl_controls_reexecution_witness :
    cacheGet cacheWithW "w" 300 10 = some [[("k", "1")]] ∧
    spawnsFor (resolveOne cfgDyn worldRows 1 "w" (rstateInit 0)).2.spawns "w"
        = spawnsFor (rstateInit 0).spawns "w" + 1 :=
  ⟨(cache_ttl_controls_reexecution.1 cacheWithW "w" 0 300 10 [[("k", "1")]]
      (by decide) (by decide)).1 (by decide),
   (cache_ttl_controls_reexecution.2 cfgDyn worldRows 0 "w" (rstateInit 0) ddEcho
      (by decide) (by decide) (by decide) (by decide)).1 (by decide)⟩

theorem failed_source_caches_empty_rows_witness :
    (resolveOne cfgDyn worldAllFail 1 "w" (rstateInit 0)).1 = [] ∧
    lookupStr (resolveOne cfgDyn worldAllFail 1 "w" (rstateInit 0)).2.cache.mem.entries "w"
        = some ⟨0, some []⟩ :=
  have h := failed_source_caches_empty_rows cfgDyn worldAllFail 0 "w" (rstateInit 0) ddEcho
    (by decide) (by decide) (by decide) (by decide) (by decide) (by decide)
    (fun _ => rfl)
  ⟨h.1, h.2.1⟩

theorem list_mode_reuses_bound_row_witness :
    resolveAppVarsSt (resolveOne cfgEnvs worldAllFail 1)
        [("envs", CtxVal.vrow [("name", "dev"), ("url", "u1")])] none
        [TmplPart.appRef "envs" none "url"] (rstateInit 0)
      = (TmplPart.lit "u1"
          :: (resolveAppVarsSt (resolveOne cfgEnvs worldAllFail 1)
              [("envs", CtxVal.vrow [("name", "dev"), ("url", "u1")])] none
              [] (rstateInit 0)).1,
         (resolveAppVarsSt (resolveOne cfgEnvs worldAllFail 1)
              [("envs", CtxVal.vrow [("name", "dev"), ("url", "u1")])] none
              [] (rstateInit 0)).2) :=
  list_mode_reuses_bound_row.1 RState (resolveOne cfgEnvs worldAllFail 1)
    [("envs", CtxVal.vrow [("name", "dev"), ("url", "u1")])] none
    "envs" "url" "u1" [("name", "dev"), ("url", "u1")] [] (rstateInit 0)
    (by decide) (by decide) (by decide)

theorem help_flag_matching_witness :
    matchLoop cfgEmpty worldAllFail 1 [(AliasTok.userVar "db", "-h")] [] (rstateInit 0)
      = (MatchStep.helpFound [], rstateInit 0) :=
  help_flag_matching.1 cfgEmpty worldAllFail 1 "db" "-h" [] [] (rstateInit 0) (by decide)

theorem strict_blocks_spawn_witness :
    execute cfgEmpty worldAllFail 1 chainStrict [] ["x"] ExecOutcome.timedOut (rstateInit 0)
      = ([EEvent.strictDiag], rstateInit 0) :=
  (strict_blocks_spawn_nonstrict_appends_quoted.1 cfgEmpty worldAllFail 1
    { command := [TmplPart.lit "run"], set_locals := false, strict := true,
      timeout := 0, isRootCommand := true } [] [] ["x"] ExecOutcome.timedOut
    (rstateInit 0) rfl rfl (by decide)).1

theorem cache_reload_save_only_on_completion_witness :
    EEvent.cacheLoaded
        ∉ (execute cfgEmpty worldAllFail 1 chainEcho [] [] ExecOutcome.timedOut (rstateInit 0)).1 ∧
    EEvent.cacheSaved
        ∉ (execute cfgEmpty worldAllFail 1 chainEcho [] [] ExecOutcome.timedOut (rstateInit 0)).1 :=
  (cache_reload_save_only_on_completion cfgEmpty worldAllFail 1 chainEcho [] []
    (rstateInit 0) (by decide)).2 ExecOutcome.timedOut (Or.inl rfl)

theorem history_keeps_last_limit_entries_witness :
    (["a", "b", "c"].foldl (fun acc cmd => addHistory acc cmd 2) cacheEnabledEmpty).mem.history
      = ["b", "c"] := by
  have h := history_keeps_last_limit_entries ["a", "b", "c"] 2 cacheEnabledEmpty
    (by decide) (by decide) (by decide)
  rw [h.1]
  decide

/-! ## Encrypted-cache round trip (`crypto.py`)

`encrypt_data` JSON-serializes a document (`json.dumps(..., ensure_ascii
=False)`), UTF-8 encodes it, AES-256-GCM encrypts it under the
machine-derived key with a random 12-byte IV, and base64-encodes
`iv ++ tag ++ ciphertext`; `decrypt_data` inverts each step, splitting the
decoded bytes at offsets 12 and 28.  The JSON, UTF-8 and base64 codecs of
the Python standard library are modelled concretely below (over codepoint
and byte lists); AES-256-GCM from the `cryptography` package is modelled
as an arbitrary keystream-plus-tag AEAD (`AeadModel`), so the round-trip
theorem holds for every block cipher, AES included.  The PBKDF2 key
derivation enters only through both sides using the same `key` value, as
both `encrypt_data` and `decrypt_data` call `_get_encryption_key()` on the
same machine. -/

/-- A JSON value as `json.dumps` sees it: strings are Unicode codepoint
lists (Python dict keys are unique; key uniqueness is not needed for the
round trip). -/
inductive Jval where
  | jnull
  | jbool (b : Bool)
  | jint (n : Int)
  | jstr (s : List Nat)
  | jarr (items : List Jval)
  | jobj (fields : List (List Nat × Jval))

mutual
/-- A size measure on JSON values, used to bound the parser fuel. -/
def jsize : Jval → Nat
  | Jval.jnull => 1
  | Jval.jbool _ => 1
  | Jval.jint _ => 1
  | Jval.jstr _ => 1
  | Jval.jarr items => jsizeList items + 1
  | Jval.jobj fields => jsizeFields fields + 1

/-- Size of an array segment. -/
def jsizeList : List Jval → Nat
  | [] => 0
  | v :: rest => jsize v + jsizeList rest + 1

/-- Size of an object segment. -/
def jsizeFields : List (List Nat × Jval) → Nat
  | [] => 0
  | f :: rest => jsize f.2 + jsizeFields rest + 1
end

/-- Decimal digit characters of a natural number, fuel-bounded so that it
reduces definitionally (any fuel above the digit count gives the digits). -/
def natCharsAux : Nat → Nat → List Nat
  | 0, _ => []
  | fuel + 1, n => if n < 10 then [48 + n] else natCharsAux fuel (n / 10) ++ [48 + n % 10]

/-- Decimal digit characters of a natural number (`repr` of an `int`). -/
def natChars (n : Nat) : List Nat := natCharsAux (n + 1) n

/-- Decimal digit characters of an integer, with a leading minus sign when
negative. -/
def intChars (n : Int) : List Nat :=
  if n < 0 then 45 :: natChars n.natAbs else natChars n.natAbs

/-- Lowercase hex digit character (`%04x` formatting). -/
def hexDigit (n : Nat) : Nat := if n < 10 then 48 + n else 87 + n

/-- The escape table of `json.encoder` for one character: quote and
backslash escapes, the short control escapes, the generic control escape,
and everything else verbatim (`ensure_ascii=False`). -/
def escapeChar (c : Nat) : List Nat :=
  if c = 34 then [92, 34]
  else if c = 92 then [92, 92]
  else if c = 8 then [92, 98]
  else if c = 9 then [92, 116]
  else if c = 10 then [92, 110]
  else if c = 12 then [92, 102]
  else if c = 13 then [92, 114]
  else if c < 32 then [92, 117, 48, 48, hexDigit (c / 16), hexDigit (c % 16)]
  else [c]

/-- A dumped JSON string: quote, escaped body, quote. -/
def strDump (s : List Nat) : List Nat := 34 :: (s.map escapeChar).flatten ++ [34]

mutual
/-- `json.dumps` with default separators, over codepoints. -/
def jsonDump : Jval → List Nat
  | Jval.jnull => [110, 117, 108, 108]
  | Jval.jbool true => [116, 114, 117, 101]
  | Jval.jbool false => [102, 97, 108, 115, 101]
  | Jval.jint n => intChars n
  | Jval.jstr s => strDump s
  | Jval.jarr [] => [91, 93]
  | Jval.jarr (v :: rest) => 91 :: (jsonDump v ++ dumpArrTail rest ++ [93])
  | Jval.jobj [] => [123, 125]
  | Jval.jobj (f :: rest) => 123 :: (dumpField f ++ dumpObjTail rest ++ [125])

/-- One `key: value` pair of a dumped object. -/
def dumpField : (List Nat × Jval) → List Nat
  | (k, v) => strDump k ++ [58, 32] ++ jsonDump v

/-- The `, item` continuation of a dumped array. -/
def dumpArrTail : List Jval → List Nat
  | [] => []
  | v :: rest => 44 :: 32 :: (jsonDump v ++ dumpArrTail rest)

/-- The `, key: value` continuation of a dumped object. -/
def dumpObjTail : List (List Nat × Jval) → List Nat
  | [] => []
  | f :: rest => 44 :: 32 :: (dumpField f ++ dumpObjTail rest)
end

/-- Decimal digit test. -/
def isDigitC (c : Nat) : Bool := 48 ≤ c && c ≤ 57

/-- Greedy digit scan with accumulator. -/
def parseDigits : Nat → List Nat → Nat × List Nat
  | acc, [] => (acc, [])
  | acc, c :: rest =>
    if isDigitC c then parseDigits (acc * 10 + (c - 48)) rest else (acc, c :: rest)

/-- Hex digit value. -/
def unhex (c : Nat) : Nat := if c < 58 then c - 48 else c - 87

/-- The inverse escape table. -/
def escDecode (e : Nat) : Option Nat :=
  if e = 34 then some 34 else if e = 92 then some 92
  else if e = 98 then some 8 else if e = 116 then some 9
  else if e = 110 then some 10 else if e = 102 then some 12
  else if e = 114 then some 13 else none

/-- Parse a JSON string body up to and past the closing quote,
fuel-bounded (any fuel above the body length suffices). -/
def parseStrBody : Nat → List Nat → Option (List Nat × List Nat)
  | 0, _ => none
  | _ + 1, [] => none
  | fuel + 1, c :: rest =>
    if c = 34 then some ([], rest)
    else if c = 92 then
      match rest with
      | [] => none
      | e :: rest2 =>
        if e = 117 then
          match rest2 with
          | h1 :: h2 :: h3 :: h4 :: rest3 =>
            (parseStrBody fuel rest3).map fun p =>
              ((unhex h1 * 4096 + unhex h2 * 256 + unhex h3 * 16 + unhex h4) :: p.1, p.2)
          | _ => none
        else
          match escDecode e with
          | some d => (parseStrBody fuel rest2).map fun p => (d :: p.1, p.2)
          | none => none
    else (parseStrBody fuel rest).map fun p => (c :: p.1, p.2)

mutual
/-- Fuel-bounded recursive-descent parser for the exact output grammar of
`jsonDump` (the canonical `json.dumps` format), modelling `json.loads` on
that output. -/
def parseVal : Nat → List Nat → Option (Jval × List Nat)
  | 0, _ => none
  | _ + 1, [] => none
  | fuel + 1, c :: rest =>
    if c = 110 then
      match rest with
      | 117 :: 108 :: 108 :: rest2 => some (Jval.jnull, rest2)
      | _ => none
    else if c = 116 then
      match rest with
      | 114 :: 117 :: 101 :: rest2 => some (Jval.jbool true, rest2)
      | _ => none
    else if c = 102 then
      match rest with
      | 97 :: 108 :: 115 :: 101 :: rest2 => some (Jval.jbool false, rest2)
      | _ => none
    else if c = 45 then
      match rest with
      | d :: rest2 =>
        if isDigitC d then
          let p := parseDigits (d - 48) rest2
          some (Jval.jint (-(p.1 : Int)), p.2)
        else none
      | [] => none
    else if isDigitC c then
      let p := parseDigits (c - 48) rest
      some (Jval.jint (p.1 : Int), p.2)
    else if c = 34 then
      (parseStrBody (rest.length + 1) rest).map fun p => (Jval.jstr p.1, p.2)
    else if c = 91 then
      match rest with
      | [] => none
      | r :: rest2 =>
        if r = 93 then some (Jval.jarr [], rest2)
        else
          match parseVal fuel (r :: rest2) with
          | some (v, rest3) =>
            match parseArrTail fuel rest3 with
            | some (items, rest4) => some (Jval.jarr (v :: items), rest4)
            | none => none
          | none => none
    else if c = 123 then
      match rest with
      | [] => none
      | r :: rest2 =>
        if r = 125 then some (Jval.jobj [], rest2)
        else
          match parseField fuel (r :: rest2) with
          | some (f, rest3) =>
            match parseObjTail fuel rest3 with
            | some (fs, rest4) => some (Jval.jobj (f :: fs), rest4)
            | none => none
          | none => none
    else none

/-- Parse the `, item ... ]` continuation of an array. -/
def parseArrTail : Nat → List Nat → Option (List Jval × List Nat)
  | 0, _ => none
  | _ + 1, 93 :: rest => some ([], rest)
  | fuel + 1, 44 :: 32 :: rest =>
    match parseVal fuel rest with
    | some (v, rest2) =>
      match parseArrTail fuel rest2 with
      | some (items, rest3) => some (v :: items, rest3)
      | none => none
    | none => none
  | _ + 1, _ => none

/-- Parse one `key: value` pair. -/
def parseField : Nat → List Nat → Option ((List Nat × Jval) × List Nat)
  | 0, _ => none
  | fuel + 1, 34 :: rest =>
    match parseStrBody (rest.length + 1) rest with
    | some (k, rest2) =>
      match rest2 with
      | 58 :: 32 :: rest3 =>
        match parseVal fuel rest3 with
        | some (v, rest4) => some ((k, v), rest4)
        | none => none
      | _ => none
    | none => none
  | _ + 1, _ => none

/-- Parse the `, key: value ... \x7d` continuation of an object. -/
def parseObjTail : Nat → List Nat → Option (List (List Nat × Jval) × List Nat)
  | 0, _ => none
  | _ + 1, 125 :: rest => some ([], rest)
  | fuel + 1, 44 :: 32 :: rest =>
    match parseField fuel rest with
    | some (f, rest2) =>
      match parseObjTail fuel rest2 with
      | some (fs, rest3) => some (f :: fs, rest3)
      | none => none
    | none => none
  | _ + 1, _ => none
end

/-- `json.loads` on a complete document: the whole input must be one
value. -/
def jsonParse (codes : List Nat) : Option Jval :=
  match parseVal (codes.length + 1) codes with
  | some (v, []) => some v
  | _ => none

/-- Input does not start with a decimal digit (the greedy number scan
stops immediately). -/
def noDigitHead : List Nat → Bool
  | [] => true
  | c :: _ => !isDigitC c

theorem parseDigits_exit (acc : Nat) (rest : List Nat) (h : noDigitHead rest = true) :
    parseDigits acc rest = (acc, rest) := by
  cases rest with
  | nil => rfl
  | cons c tail =>
    simp only [noDigitHead, Bool.not_eq_true'] at h
    simp [parseDigits, h]

theorem natCharsAux_digits : ∀ (fuel n : Nat), n < fuel →
    ∀ c ∈ natCharsAux fuel n, 48 ≤ c ∧ c ≤ 57 := by
  intro fuel
  induction fuel with
  | zero => intro n h; omega
  | succ f ih =>
    intro n h c hc
    by_cases h10 : n < 10
    · simp [natCharsAux, h10] at hc
      omega
    · simp only [natCharsAux, h10, if_false, List.mem_append] at hc
      rcases hc with hc | hc
      · exact ih (n / 10) (by omega) c hc
      · simp at hc
        omega

theorem natCharsAux_ne_nil (fuel n : Nat) (h : n < fuel) : natCharsAux fuel n ≠ [] := by
  cases fuel with
  | zero => omega
  | succ f =>
    by_cases h10 : n < 10 <;> simp [natCharsAux, h10]

theorem parseDigits_natCharsAux : ∀ (fuel n : Nat), n < fuel → ∀ (acc : Nat) (rest : List Nat),
    parseDigits acc (natCharsAux fuel n ++ rest)
      = parseDigits (acc * 10 ^ (natCharsAux fuel n).length + n) rest := by
  intro fuel
  induction fuel with
  | zero => intro n h; omega
  | succ f ih =>
    intro n h acc rest
    by_cases h10 : n < 10
    · simp only [natCharsAux, h10, if_true, List.singleton_append, List.length_singleton]
      have hd : isDigitC (48 + n) = true := by simp [isDigitC]; omega
      simp [parseDigits, hd]
    · have hlt : n / 10 < f := by
        have := Nat.div_lt_self (by omega : 0 < n) (by omega : 1 < 10)
        omega
      simp only [natCharsAux, h10, if_false, List.append_assoc, List.cons_append,
        List.nil_append, List.length_append, List.length_singleton]
      rw [ih (n / 10) hlt acc ((48 + n % 10) :: rest)]
      have hd : isDigitC (48 + n % 10) = true := by
        simp [isDigitC]; omega
      simp only [parseDigits, hd, if_true]
      congr 1
      have hmod := Nat.div_add_mod n 10
      have hpow : 10 ^ ((natCharsAux f (n / 10)).length + 1)
          = 10 ^ (natCharsAux f (n / 10)).length * 10 := by
        rw [Nat.pow_succ]
      rw [hpow]
      ring_nf
      omega

theorem natChars_head_digit (m : Nat) :
    ∃ c tail, natChars m = c :: tail ∧ 48 ≤ c ∧ c ≤ 57 := by
  rcases hnc : natChars m with _ | ⟨c, tail⟩
  · exact absurd hnc (natCharsAux_ne_nil (m + 1) m (by omega))
  · refine ⟨c, tail, rfl, ?_⟩
    have hc : c ∈ natChars m := by rw [hnc]; exact List.mem_cons_self _ _
    exact natCharsAux_digits (m + 1) m (by omega) c hc

theorem parseDigits_natChars_head (m : Nat) (rest : List Nat)
    (hnd : noDigitHead rest = true) (c : Nat) (tail : List Nat)
    (hct : natChars m = c :: tail) (hdig : isDigitC c = true) :
    parseDigits (c - 48) (tail ++ rest) = (m, rest) := by
  have hwhole : parseDigits 0 (natChars m ++ rest) = (m, rest) := by
    unfold natChars
    rw [parseDigits_natCharsAux (m + 1) m (by omega) 0 rest]
    rw [parseDigits_exit _ _ hnd]
    simp
  rw [hct, List.cons_append] at hwhole
  simpa [parseDigits, hdig] using hwhole

theorem parseVal_intChars (n : Int) (fuel : Nat) (rest : List Nat)
    (hnd : noDigitHead rest = true) :
    parseVal (fuel + 1) (intChars n ++ rest) = some (Jval.jint n, rest) := by
  by_cases hneg : n < 0
  · obtain ⟨c, tail, hct, hc1, hc2⟩ := natChars_head_digit n.natAbs
    have hdig : isDigitC c = true := by simp [isDigitC]; omega
    have hp := parseDigits_natChars_head n.natAbs rest hnd c tail hct hdig
    simp only [intChars, hneg, if_true, List.cons_append]
    simp only [parseVal, if_pos rfl, hct, List.cons_append]
    rw [if_neg (by omega : ¬ (45 : Nat) = 110), if_neg (by omega : ¬ (45 : Nat) = 116),
      if_neg (by omega : ¬ (45 : Nat) = 102)]
    simp only [hdig, if_true, hp]
    have : -((n.natAbs : Nat) : Int) = n := by omega
    rw [this]
  · obtain ⟨c, tail, hct, hc1, hc2⟩ := natChars_head_digit n.natAbs
    have hdig : isDigitC c = true := by simp [isDigitC]; omega
    have hp := parseDigits_natChars_head n.natAbs rest hnd c tail hct hdig
    simp only [intChars, hneg, if_false, hct, List.cons_append]
    simp only [parseVal]
    rw [if_neg (by omega : ¬ c = 110), if_neg (by omega : ¬ c = 116),
      if_neg (by omega : ¬ c = 102), if_neg (by omega : ¬ c = 45)]
    simp only [hdig, if_true, hp]
    have : ((n.natAbs : Nat) : Int) = n := by omega
    rw [this]

theorem unhex_hexDigit : ∀ m : Nat, m < 16 → unhex (hexDigit m) = m := by
  decide

theorem escapeChar_length_pos (c : Nat) : 1 ≤ (escapeChar c).length := by
  unfold escapeChar
  repeat' split
  all_goals simp

theorem parseStrBody_escaped : ∀ (s : List Nat) (fuel : Nat) (rest : List Nat),
    ((s.map escapeChar).flatten).length < fuel →
    parseStrBody fuel ((s.map escapeChar).flatten ++ 34 :: rest) = some (s, rest) := by
  intro s
  induction s with
  | nil =>
    intro fuel rest h
    cases fuel with
    | zero => omega
    | succ f => simp [parseStrBody]
  | cons c s2 ih =>
    intro fuel rest h
    simp only [List.map_cons, List.flatten_cons, List.length_append] at h ⊢
    cases fuel with
    | zero => omega
    | succ f =>
    have hlen2 : ((s2.map escapeChar).flatten).length < f := by
      have := escapeChar_length_pos c
      omega
    have hih := ih f rest hlen2
    by_cases h34 : c = 34
    · subst h34
      simp [escapeChar, parseStrBody, escDecode, hih]
    · by_cases h92 : c = 92
      · subst h92
        simp [escapeChar, parseStrBody, escDecode, hih]
      · by_cases h8 : c = 8
        · subst h8; simp [escapeChar, parseStrBody, escDecode, hih]
        · by_cases h9 : c = 9
          · subst h9; simp [escapeChar, parseStrBody, escDecode, hih]
          · by_cases h10 : c = 10
            · subst h10; simp [escapeChar, parseStrBody, escDecode, hih]
            · by_cases h12 : c = 12
              · subst h12; simp [escapeChar, parseStrBody, escDecode, hih]
              · by_cases h13 : c = 13
                · subst h13; simp [escapeChar, parseStrBody, escDecode, hih]
                · by_cases hlt : c < 32
                  · simp only [escapeChar, if_neg h34, if_neg h92, if_neg h8, if_neg h9,
                      if_neg h10, if_neg h12, if_neg h13, if_pos hlt, List.cons_append,
                      List.nil_append]
                    simp only [parseStrBody, if_neg (by omega : ¬ (92 : Nat) = 34),
                      if_pos (rfl : (92 : Nat) = 92), if_pos (rfl : (117 : Nat) = 117), hih]
                    have hu1 : unhex 48 = 0 := by decide
                    have hu2 : unhex (hexDigit (c / 16)) = c / 16 :=
                      unhex_hexDigit _ (by omega)
                    have hu3 : unhex (hexDigit (c % 16)) = c % 16 :=
                      unhex_hexDigit _ (by omega)
                    simp only [Option.map_some, hu1, hu2, hu3]
                    have hc : c / 16 * 16 + c % 16 = c := by omega
                    simp [hc]
                  · simp only [escapeChar, if_neg h34, if_neg h92, if_neg h8, if_neg h9,
                      if_neg h10, if_neg h12, if_neg h13, if_neg hlt, List.cons_append,
                      List.nil_append]
                    simp [parseStrBody, if_neg h34, if_neg h92, hih]

theorem jsonDump_head_not_bracket : ∀ (v : Jval) (c : Nat) (tail : List Nat),
    jsonDump v = c :: tail → c ≠ 93 ∧ c ≠ 125 := by
  intro v
  cases v with
  | jnull => intro c tail h; injection h with h1 _; omega
  | jbool b =>
    cases b <;> · intro c tail h; injection h with h1 _; omega
  | jint n =>
    intro c tail h
    simp only [jsonDump, intChars] at h
    by_cases hneg : n < 0
    · rw [if_pos hneg] at h
      injection h with h1 _
      omega
    · rw [if_neg hneg] at h
      obtain ⟨c0, t0, hct, hd1, hd2⟩ := natChars_head_digit n.natAbs
      rw [hct] at h
      injection h with h1 _
      omega
  | jstr s =>
    intro c tail h
    simp only [jsonDump, strDump] at h
    injection h with h1 _
    omega
  | jarr items =>
    intro c tail h
    cases items <;> · injection h with h1 _; omega
  | jobj fields =>
    intro c tail h
    cases fields <;> · injection h with h1 _; omega

theorem jsonDump_ne_nil : ∀ v : Jval, jsonDump v ≠ [] := by
  intro v
  cases v with
  | jnull => simp [jsonDump]
  | jbool b => cases b <;> simp [jsonDump]
  | jint n =>
    simp only [jsonDump, intChars]
    by_cases hneg : n < 0
    · simp [hneg]
    · rw [if_neg hneg]
      exact natCharsAux_ne_nil _ _ (by omega)
  | jstr s => simp [jsonDump, strDump]
  | jarr items => cases items <;> simp [jsonDump]
  | jobj fields => cases fields <;> simp [jsonDump]

theorem noDigitHead_dumpArrTail (items : List Jval) (rest : List Nat) :
    noDigitHead (dumpArrTail items ++ 93 :: rest) = true := by
  cases items <;> simp [dumpArrTail, noDigitHead, isDigitC]

theorem noDigitHead_dumpObjTail (fields : List (List Nat × Jval)) (rest : List Nat) :
    noDigitHead (dumpObjTail fields ++ 125 :: rest) = true := by
  cases fields <;> simp [dumpObjTail, noDigitHead, isDigitC]

theorem parseVal_str_step (f : Nat) (body : List Nat) :
    parseVal (f + 1) (34 :: body)
      = (parseStrBody (body.length + 1) body).map fun p => (Jval.jstr p.1, p.2) := by
  simp [parseVal, isDigitC]

theorem parseVal_arr_step (f r : Nat) (rest2 : List Nat) (hr : r ≠ 93) :
    parseVal (f + 1) (91 :: r :: rest2)
      = (match parseVal f (r :: rest2) with
         | some (v, rest3) =>
           match parseArrTail f rest3 with
           | some (items, rest4) => some (Jval.jarr (v :: items), rest4)
           | none => none
         | none => none) := by
  simp [parseVal, isDigitC, hr]

theorem parseVal_obj_step (f r : Nat) (rest2 : List Nat) (hr : r ≠ 125) :
    parseVal (f + 1) (123 :: r :: rest2)
      = (match parseField f (r :: rest2) with
         | some (fd, rest3) =>
           match parseObjTail f rest3 with
           | some (fs, rest4) => some (Jval.jobj (fd :: fs), rest4)
           | none => none
         | none => none) := by
  simp [parseVal, isDigitC, hr]

/-- The four mutually inductive round-trip statements, under a shared
size budget for the strong induction. -/
def ParseDumpBundle (N : Nat) : Prop :=
  (∀ v : Jval, jsize v ≤ N → ∀ (fuel : Nat) (rest : List Nat), jsize v ≤ fuel →
     noDigitHead rest = true →
     parseVal fuel (jsonDump v ++ rest) = some (v, rest)) ∧
  (∀ items : List Jval, jsizeList items ≤ N → ∀ (fuel : Nat) (rest : List Nat),
     jsizeList items < fuel →
     parseArrTail fuel (dumpArrTail items ++ 93 :: rest) = some (items, rest)) ∧
  (∀ fields : List (List Nat × Jval), jsizeFields fields ≤ N →
     ∀ (fuel : Nat) (rest : List Nat), jsizeFields fields < fuel →
     parseObjTail fuel (dumpObjTail fields ++ 125 :: rest) = some (fields, rest))

theorem parseDumpBundle_all : ∀ N : Nat, ParseDumpBundle N := by
  intro N
  induction N using Nat.strong_induction_on with
  | _ N IH =>
  have hfield : ∀ (k : List Nat) (v : Jval), jsize v < N →
      ∀ (fuel : Nat) (rest : List Nat), jsize v < fuel → noDigitHead rest = true →
      parseField fuel (dumpField (k, v) ++ rest) = some ((k, v), rest) := by
    intro k v hvN fuel rest hfuel hnd
    have hA := (IH (jsize v) hvN).1 v le_rfl
    cases fuel with
    | zero => omega
    | succ f =>
    have hv := hA f rest (by omega) hnd
    have hin : dumpField (k, v) ++ rest
        = 34 :: ((k.map escapeChar).flatten
            ++ 34 :: (58 :: 32 :: (jsonDump v ++ rest))) := by
      simp [dumpField, strDump]
    rw [hin]
    simp only [parseField]
    rw [parseStrBody_escaped k _ _ (by simp [List.length_append]; omega)]
    simp [hv]
  refine ⟨?_, ?_, ?_⟩
  · -- parseVal round trip
    intro v hvN fuel rest hfuel hnd
    cases v with
    | jnull =>
      cases fuel with
      | zero => simp [jsize] at hfuel
      | succ f => simp [jsonDump, parseVal]
    | jbool b =>
      cases fuel with
      | zero => simp [jsize] at hfuel
      | succ f => cases b <;> simp [jsonDump, parseVal]
    | jint n =>
      cases fuel with
      | zero => simp [jsize] at hfuel
      | succ f => simpa [jsonDump] using parseVal_intChars n f rest hnd
    | jstr s =>
      cases fuel with
      | zero => simp [jsize] at hfuel
      | succ f =>
        have hin : jsonDump (Jval.jstr s) ++ rest
            = 34 :: ((s.map escapeChar).flatten ++ 34 :: rest) := by
          simp [jsonDump, strDump]
        rw [hin, parseVal_str_step]
        rw [parseStrBody_escaped s _ _ (by simp [List.length_append]; omega)]
        rfl
    | jarr items =>
      cases items with
      | nil =>
        cases fuel with
        | zero => simp [jsize, jsizeList] at hfuel
        | succ f => simp [jsonDump, parseVal, isDigitC]
      | cons v items2 =>
        have hsz : jsize (Jval.jarr (v :: items2)) = jsize v + jsizeList items2 + 2 := by
          simp [jsize, jsizeList]
          try omega
        rw [hsz] at hvN hfuel
        cases fuel with
        | zero => omega
        | succ f =>
        have hA := (IH (jsize v) (by omega)).1 v le_rfl
        have hB := (IH (jsizeList items2) (by omega)).2.1 items2 le_rfl
        obtain ⟨c0, t0, hct⟩ : ∃ c0 t0, jsonDump v = c0 :: t0 := by
          rcases hd : jsonDump v with _ | ⟨c0, t0⟩
          · exact absurd hd (jsonDump_ne_nil v)
          · exact ⟨c0, t0, rfl⟩
        obtain ⟨hc93, -⟩ := jsonDump_head_not_bracket v c0 t0 hct
        have hv := hA f (dumpArrTail items2 ++ 93 :: rest) (by omega)
          (noDigitHead_dumpArrTail items2 rest)
        rw [hct, List.cons_append] at hv
        have hArr := hB f rest (by omega)
        have hin : jsonDump (Jval.jarr (v :: items2)) ++ rest
            = 91 :: (c0 :: (t0 ++ (dumpArrTail items2 ++ 93 :: rest))) := by
          simp [jsonDump, hct]
        rw [hin, parseVal_arr_step f c0 _ hc93, hv]
        simp [hArr]
    | jobj fields =>
      cases fields with
      | nil =>
        cases fuel with
        | zero => simp [jsize, jsizeFields] at hfuel
        | succ f => simp [jsonDump, parseVal, isDigitC]
      | cons fld fields2 =>
        obtain ⟨k0, v0⟩ := fld
        have hsz : jsize (Jval.jobj ((k0, v0) :: fields2))
            = jsize v0 + jsizeFields fields2 + 2 := by
          simp [jsize, jsizeFields]
          try omega
        rw [hsz] at hvN hfuel
        cases fuel with
        | zero => omega
        | succ f =>
        have hC := (IH (jsizeFields fields2) (by omega)).2.2 fields2 le_rfl
        have hfv := hfield k0 v0 (by omega) f
          (dumpObjTail fields2 ++ 125 :: rest) (by omega)
          (noDigitHead_dumpObjTail fields2 rest)
        have hObj := hC f rest (by omega)
        have hin : jsonDump (Jval.jobj ((k0, v0) :: fields2)) ++ rest
            = 123 :: (34 :: ((k0.map escapeChar).flatten
                ++ 34 :: (58 :: 32 :: (jsonDump v0
                  ++ (dumpObjTail fields2 ++ 125 :: rest))))) := by
          simp [jsonDump, dumpField, strDump]
        have hfin : dumpField (k0, v0) ++ (dumpObjTail fields2 ++ 125 :: rest)
            = 34 :: ((k0.map escapeChar).flatten
                ++ 34 :: (58 :: 32 :: (jsonDump v0
                  ++ (dumpObjTail fields2 ++ 125 :: rest)))) := by
          simp [dumpField, strDump]
        rw [hfin] at hfv
        rw [hin, parseVal_obj_step f 34 _ (by omega), hfv]
        simp [hObj]
  · -- parseArrTail round trip
    intro items hiN fuel rest hfuel
    cases items with
    | nil =>
      cases fuel with
      | zero => omega
      | succ f => simp [dumpArrTail, parseArrTail]
    | cons v items2 =>
      have hsz : jsizeList (v :: items2) = jsize v + jsizeList items2 + 1 := by
        simp [jsizeList]
      rw [hsz] at hiN hfuel
      cases fuel with
      | zero => omega
      | succ f =>
      have hA := (IH (jsize v) (by omega)).1 v le_rfl
      have hB := (IH (jsizeList items2) (by omega)).2.1 items2 le_rfl
      have hv := hA f (dumpArrTail items2 ++ 93 :: rest) (by omega)
        (noDigitHead_dumpArrTail items2 rest)
      have hArr := hB f rest (by omega)
      have hin : dumpArrTail (v :: items2) ++ 93 :: rest
          = 44 :: 32 :: (jsonDump v ++ (dumpArrTail items2 ++ 93 :: rest)) := by
        simp [dumpArrTail]
      rw [hin]
      simp only [parseArrTail]
      rw [hv]
      simp [hArr]
  · -- parseObjTail round trip
    intro fields hiN fuel rest hfuel
    cases fields with
    | nil =>
      cases fuel with
      | zero => omega
      | succ f => simp [dumpObjTail, parseObjTail]
    | cons fld fields2 =>
      obtain ⟨k0, v0⟩ := fld
      have hsz : jsizeFields ((k0, v0) :: fields2)
          = jsize v0 + jsizeFields fields2 + 1 := by
        simp [jsizeFields]
      rw [hsz] at hiN hfuel
      cases fuel with
      | zero => omega
      | succ f =>
      have hC := (IH (jsizeFields fields2) (by omega)).2.2 fields2 le_rfl
      have hfv := hfield k0 v0 (by omega) f
        (dumpObjTail fields2 ++ 125 :: rest) (by omega)
        (noDigitHead_dumpObjTail fields2 rest)
      have hObj := hC f rest (by omega)
      have hin : dumpObjTail ((k0, v0) :: fields2) ++ 125 :: rest
          = 44 :: 32 :: (dumpField (k0, v0)
              ++ (dumpObjTail fields2 ++ 125 :: rest)) := by
        simp [dumpObjTail]
      rw [hin]
      simp only [parseObjTail]
      rw [hfv]
      simp [hObj]

theorem intChars_ne_nil (n : Int) : intChars n ≠ [] := by
  unfold intChars
  by_cases hneg : n < 0
  · simp [hneg]
  · rw [if_neg hneg]
    exact natCharsAux_ne_nil _ _ (by omega)

theorem jsize_le_dump_length : ∀ N : Nat,
    (∀ v : Jval, jsize v ≤ N → jsize v ≤ (jsonDump v).length) ∧
    (∀ items : List Jval, jsizeList items ≤ N →
      jsizeList items ≤ (dumpArrTail items).length) ∧
    (∀ fields : List (List Nat × Jval), jsizeFields fields ≤ N →
      jsizeFields fields ≤ (dumpObjTail fields).length) := by
  intro N
  induction N using Nat.strong_induction_on with
  | _ N IH =>
  refine ⟨?_, ?_, ?_⟩
  · intro v hvN
    cases v with
    | jnull => simp [jsize, jsonDump]
    | jbool b => cases b <;> simp [jsize, jsonDump]
    | jint n =>
      have : intChars n ≠ [] := intChars_ne_nil n
      have : 1 ≤ (intChars n).length := by
        cases h : intChars n with
        | nil => exact absurd h this
        | cons a l => simp
      simpa [jsize, jsonDump] using this
    | jstr s => simp [jsize, jsonDump, strDump]
    | jarr items =>
      cases items with
      | nil => simp [jsize, jsizeList, jsonDump]
      | cons v items2 =>
        have hsz : jsize (Jval.jarr (v :: items2)) = jsize v + jsizeList items2 + 2 := by
          simp [jsize, jsizeList]
          try omega
        rw [hsz] at hvN ⊢
        have h1 := (IH (jsize v) (by omega)).1 v le_rfl
        have h2 := (IH (jsizeList items2) (by omega)).2.1 items2 le_rfl
        simp only [jsonDump, List.length_cons, List.length_append]
        simp
        omega
    | jobj fields =>
      cases fields with
      | nil => simp [jsize, jsizeFields, jsonDump]
      | cons fld fields2 =>
        obtain ⟨k0, v0⟩ := fld
        have hsz : jsize (Jval.jobj ((k0, v0) :: fields2))
            = jsize v0 + jsizeFields fields2 + 2 := by
          simp [jsize, jsizeFields]
          try omega
        rw [hsz] at hvN ⊢
        have h1 := (IH (jsize v0) (by omega)).1 v0 le_rfl
        have h2 := (IH (jsizeFields fields2) (by omega)).2.2 fields2 le_rfl
        simp only [jsonDump, dumpField, strDump, List.length_cons, List.length_append]
        simp
        omega
  · intro items hiN
    cases items with
    | nil => simp [jsizeList, dumpArrTail]
    | cons v items2 =>
      have hsz : jsizeList (v :: items2) = jsize v + jsizeList items2 + 1 := by
        simp [jsizeList]
      rw [hsz] at hiN ⊢
      have h1 := (IH (jsize v) (by omega)).1 v le_rfl
      have h2 := (IH (jsizeList items2) (by omega)).2.1 items2 le_rfl
      simp only [dumpArrTail, List.length_cons, List.length_append]
      omega
  · intro fields hiN
    cases fields with
    | nil => simp [jsizeFields, dumpObjTail]
    | cons fld fields2 =>
      obtain ⟨k0, v0⟩ := fld
      have hsz : jsizeFields ((k0, v0) :: fields2)
          = jsize v0 + jsizeFields fields2 + 1 := by
        simp [jsizeFields]
      rw [hsz] at hiN ⊢
      have h1 := (IH (jsize v0) (by omega)).1 v0 le_rfl
      have h2 := (IH (jsizeFields fields2) (by omega)).2.2 fields2 le_rfl
      simp only [dumpObjTail, dumpField, strDump, List.length_cons, List.length_append]
      omega

/-- The JSON layer round trip: parsing a dumped document yields the
document back. -/
theorem jsonParse_jsonDump (v : Jval) : jsonParse (jsonDump v) = some v := by
  unfold jsonParse
  have hsz := (jsize_le_dump_length (jsize v)).1 v le_rfl
  have h := (parseDumpBundle_all (jsize v)).1 v le_rfl ((jsonDump v).length + 1) []
    (by omega) rfl
  rw [List.append_nil] at h
  rw [h]

/-! ## UTF-8 codec (`str.encode` / `bytes.decode`) -/

/-- UTF-8 encoding of one Unicode codepoint. -/
def utf8EncodeChar (n : Nat) : List Nat :=
  if n < 128 then [n]
  else if n < 2048 then [192 + n / 64, 128 + n % 64]
  else if n < 65536 then [224 + n / 4096, 128 + (n / 64) % 64, 128 + n % 64]
  else [240 + n / 262144, 128 + (n / 4096) % 64, 128 + (n / 64) % 64, 128 + n % 64]

/-- UTF-8 encoding of a codepoint sequence. -/
def utf8Encode (s : List Nat) : List Nat := (s.map utf8EncodeChar).flatten

/-- UTF-8 decoding, fuel-bounded (any fuel above the byte count
suffices); malformed sequences yield `none` (Python raises
`UnicodeDecodeError`, which `decrypt_data` converts to a failure). -/
def utf8Decode : Nat → List Nat → Option (List Nat)
  | 0, _ => none
  | _ + 1, [] => some []
  | fuel + 1, b :: rest =>
    if b < 128 then (utf8Decode fuel rest).map fun s => b :: s
    else if b < 224 then
      match rest with
      | c2 :: rest2 =>
        if 192 ≤ b && 128 ≤ c2 && c2 < 192 then
          (utf8Decode fuel rest2).map fun s => ((b - 192) * 64 + (c2 - 128)) :: s
        else none
      | [] => none
    else if b < 240 then
      match rest with
      | c2 :: c3 :: rest2 =>
        if 128 ≤ c2 && c2 < 192 && 128 ≤ c3 && c3 < 192 then
          (utf8Decode fuel rest2).map
            fun s => ((b - 224) * 4096 + (c2 - 128) * 64 + (c3 - 128)) :: s
        else none
      | _ => none
    else
      match rest with
      | c2 :: c3 :: c4 :: rest2 =>
        if b < 248 && 128 ≤ c2 && c2 < 192 && 128 ≤ c3 && c3 < 192
            && 128 ≤ c4 && c4 < 192 then
          (utf8Decode fuel rest2).map
            fun s => ((b - 240) * 262144 + (c2 - 128) * 4096
              + (c3 - 128) * 64 + (c4 - 128)) :: s
        else none
      | _ => none

theorem utf8EncodeChar_length_pos (c : Nat) : 1 ≤ (utf8EncodeChar c).length := by
  unfold utf8EncodeChar
  repeat' split
  all_goals simp

theorem utf8EncodeChar_bytes_lt (c : Nat) (hc : c < 1114112) :
    ∀ b ∈ utf8EncodeChar c, b < 256 := by
  intro b hb
  unfold utf8EncodeChar at hb
  by_cases h1 : c < 128
  · simp [h1] at hb
    omega
  · by_cases h2 : c < 2048
    · simp [h1, h2] at hb
      rcases hb with hb | hb <;> omega
    · by_cases h3 : c < 65536
      · simp [h1, h2, h3] at hb
        rcases hb with hb | hb | hb <;> omega
      · simp [h1, h2, h3] at hb
        rcases hb with hb | hb | hb | hb <;> omega

theorem utf8Decode_encodeChar (c : Nat) (hc : c < 1114112) :
    ∀ (fuel : Nat) (rest : List Nat),
      utf8Decode (fuel + 1) (utf8EncodeChar c ++ rest)
        = (utf8Decode fuel rest).map fun s => c :: s := by
  intro fuel rest
  by_cases h1 : c < 128
  · simp [utf8EncodeChar, h1, utf8Decode]
  · by_cases h2 : c < 2048
    · have e1 : ¬ 192 + c / 64 < 128 := by omega
      have e2 : 192 + c / 64 < 224 := by omega
      simp only [utf8EncodeChar, h1, h2, if_false, if_true, List.cons_append,
        List.nil_append, utf8Decode, e1, e2]
      rw [if_pos (by simp; omega)]
      have : (192 + c / 64 - 192) * 64 + (128 + c % 64 - 128) = c := by omega
      rw [this]
    · by_cases h3 : c < 65536
      · have e1 : ¬ 224 + c / 4096 < 128 := by omega
        have e2 : ¬ 224 + c / 4096 < 224 := by omega
        have e3 : 224 + c / 4096 < 240 := by omega
        simp only [utf8EncodeChar, h1, h2, h3, if_false, if_true, List.cons_append,
          List.nil_append, utf8Decode, e1, e2, e3]
        rw [if_pos (by simp; omega)]
        have : (224 + c / 4096 - 224) * 4096 + (128 + (c / 64) % 64 - 128) * 64
            + (128 + c % 64 - 128) = c := by omega
        rw [this]
      · have e1 : ¬ 240 + c / 262144 < 128 := by omega
        have e2 : ¬ 240 + c / 262144 < 224 := by omega
        have e3 : ¬ 240 + c / 262144 < 240 := by omega
        simp only [utf8EncodeChar, h1, h2, h3, if_false, List.cons_append,
          List.nil_append, utf8Decode, e1, e2, e3]
        rw [if_pos (by simp; omega)]
        have : (240 + c / 262144 - 240) * 262144 + (128 + (c / 4096) % 64 - 128) * 4096
            + (128 + (c / 64) % 64 - 128) * 64 + (128 + c % 64 - 128) = c := by omega
        rw [this]

theorem utf8_roundtrip : ∀ (s : List Nat), (∀ c ∈ s, c < 1114112) →
    ∀ fuel : Nat, (utf8Encode s).length < fuel →
      utf8Decode fuel (utf8Encode s) = some s := by
  intro s
  induction s with
  | nil =>
    intro hwf fuel hfuel
    cases fuel with
    | zero => omega
    | succ f => simp [utf8Encode, utf8Decode]
  | cons c s2 ih =>
    intro hwf fuel hfuel
    have hc : c < 1114112 := hwf c (List.mem_cons_self _ _)
    simp only [utf8Encode, List.map_cons, List.flatten_cons, List.length_append] at hfuel ⊢
    cases fuel with
    | zero => omega
    | succ f =>
    rw [utf8Decode_encodeChar c hc f _]
    have hlen2 : (utf8Encode s2).length < f := by
      have := utf8EncodeChar_length_pos c
      simp only [utf8Encode] at *
      omega
    have hih := ih (fun d hd => hwf d (List.mem_cons_of_mem _ hd)) f hlen2
    simp only [utf8Encode] at hih
    rw [hih]
    rfl

/-! ## Base64 codec (`base64.b64encode` / `b64decode`) -/

/-- The standard base64 alphabet, as character codes. -/
def b64Alphabet : List Nat :=
  [65, 66, 67, 68, 69, 70, 71, 72, 73, 74, 75, 76, 77, 78, 79, 80, 81, 82, 83,
   84, 85, 86, 87, 88, 89, 90,
   97, 98, 99, 100, 101, 102, 103, 104, 105, 106, 107, 108, 109, 110, 111, 112,
   113, 114, 115, 116, 117, 118, 119, 120, 121, 122,
   48, 49, 50, 51, 52, 53, 54, 55, 56, 57, 43, 47]

/-- Character for a six-bit group. -/
def b64Char (n : Nat) : Nat := b64Alphabet.getD n 0

/-- Index of a base64 character in the alphabet. -/
def b64DecChar (c : Nat) : Option Nat := b64Alphabet.findIdx? fun x => x == c

/-- `base64.b64encode` over byte lists: three bytes map to four alphabet
characters; one or two trailing bytes are padded with `=` (61). -/
def b64encode : List Nat → List Nat
  | a :: b :: c :: rest =>
    let w := a * 65536 + b * 256 + c
    b64Char (w / 262144) :: b64Char (w / 4096 % 64) :: b64Char (w / 64 % 64)
      :: b64Char (w % 64) :: b64encode rest
  | [a, b] =>
    let w := a * 65536 + b * 256
    [b64Char (w / 262144), b64Char (w / 4096 % 64), b64Char (w / 64 % 64), 61]
  | [a] =>
    let w := a * 65536
    [b64Char (w / 262144), b64Char (w / 4096 % 64), 61, 61]
  | [] => []

/-- `base64.b64decode` over byte lists, returning `none` on malformed
input (Python raises `binascii.Error`, which `decrypt_data` converts to a
failure); `=` padding (61) is honored only in the final quartet. -/
def b64decode : List Nat → Option (List Nat)
  | [] => some []
  | c1 :: c2 :: c3 :: c4 :: rest =>
    if c3 = 61 then
      match rest with
      | [] =>
        if c4 = 61 then
          match b64DecChar c1, b64DecChar c2 with
          | some x, some y => some [(x * 262144 + y * 4096) / 65536]
          | _, _ => none
        else none
      | _ => none
    else if c4 = 61 then
      match rest with
      | [] =>
        match b64DecChar c1, b64DecChar c2, b64DecChar c3 with
        | some x, some y, some z =>
          let w := x * 262144 + y * 4096 + z * 64
          some [w / 65536, w / 256 % 256]
        | _, _, _ => none
      | _ => none
    else
      match b64DecChar c1, b64DecChar c2, b64DecChar c3, b64DecChar c4 with
      | some x, some y, some z, some u =>
        let w := x * 262144 + y * 4096 + z * 64 + u
        match b64decode rest with
        | some bs => some (w / 65536 :: w / 256 % 256 :: w % 256 :: bs)
        | none => none
      | _, _, _, _ => none
  | _ => none

theorem b64DecChar_b64Char : ∀ n : Nat, n < 64 → b64DecChar (b64Char n) = some n := by
  decide

theorem b64Char_ne_61 : ∀ n : Nat, n < 64 → b64Char n ≠ 61 := by
  decide

theorem b64_roundtrip : ∀ l : List Nat, (∀ b ∈ l, b < 256) →
    b64decode (b64encode l) = some l := by
  intro l
  induction l using b64encode.induct with
  | case1 a b c rest ih =>
    intro hwf
    have ha : a < 256 := hwf a (by simp)
    have hb : b < 256 := hwf b (by simp)
    have hc : c < 256 := hwf c (by simp)
    have hrest := ih fun d hd => hwf d (by simp [hd])
    simp only [b64encode]
    have h3 : b64Char ((a * 65536 + b * 256 + c) / 64 % 64) ≠ 61 :=
      b64Char_ne_61 _ (by omega)
    have h4 : b64Char ((a * 65536 + b * 256 + c) % 64) ≠ 61 :=
      b64Char_ne_61 _ (by omega)
    simp only [b64decode, if_neg h3, if_neg h4,
      b64DecChar_b64Char _ (by omega : (a * 65536 + b * 256 + c) / 262144 < 64),
      b64DecChar_b64Char _ (by omega : (a * 65536 + b * 256 + c) / 4096 % 64 < 64),
      b64DecChar_b64Char _ (by omega : (a * 65536 + b * 256 + c) / 64 % 64 < 64),
      b64DecChar_b64Char _ (by omega : (a * 65536 + b * 256 + c) % 64 < 64), hrest]
    have e1 : (a * 65536 + b * 256 + c) / 262144 * 262144
        + (a * 65536 + b * 256 + c) / 4096 % 64 * 4096
        + (a * 65536 + b * 256 + c) / 64 % 64 * 64
        + (a * 65536 + b * 256 + c) % 64 = a * 65536 + b * 256 + c := by omega
    rw [e1]
    have e2 : (a * 65536 + b * 256 + c) / 65536 = a := by omega
    have e3 : (a * 65536 + b * 256 + c) / 256 % 256 = b := by omega
    have e4 : (a * 65536 + b * 256 + c) % 256 = c := by omega
    rw [e2, e3, e4]
  | case2 a b =>
    intro hwf
    have ha : a < 256 := hwf a (by simp)
    have hb : b < 256 := hwf b (by simp)
    simp only [b64encode]
    have h3 : b64Char ((a * 65536 + b * 256) / 64 % 64) ≠ 61 :=
      b64Char_ne_61 _ (by omega)
    simp only [b64decode, if_neg h3, if_pos rfl,
      b64DecChar_b64Char _ (by omega : (a * 65536 + b * 256) / 262144 < 64),
      b64DecChar_b64Char _ (by omega : (a * 65536 + b * 256) / 4096 % 64 < 64),
      b64DecChar_b64Char _ (by omega : (a * 65536 + b * 256) / 64 % 64 < 64)]
    have e1 : (a * 65536 + b * 256) / 262144 * 262144
        + (a * 65536 + b * 256) / 4096 % 64 * 4096
        + (a * 65536 + b * 256) / 64 % 64 * 64 = a * 65536 + b * 256 := by omega
    rw [e1]
    have e2 : (a * 65536 + b * 256) / 65536 = a := by omega
    have e3 : (a * 65536 + b * 256) / 256 % 256 = b := by omega
    rw [e2, e3]
    simp
  | case3 a =>
    intro hwf
    have ha : a < 256 := hwf a (by simp)
    simp only [b64encode]
    simp only [b64decode, if_pos rfl,
      b64DecChar_b64Char _ (by omega : a * 65536 / 262144 < 64),
      b64DecChar_b64Char _ (by omega : a * 65536 / 4096 % 64 < 64)]
    have e1 : (a * 65536 / 262144 * 262144 + a * 65536 / 4096 % 64 * 4096) / 65536
        = a := by omega
    rw [e1]
    simp
  | case4 =>
    intro hwf
    rfl

/-! ## The AEAD layer and `encrypt_data` / `decrypt_data` -/

/-- Byte-wise XOR of two byte lists. -/
def xorBytes (a b : List Nat) : List Nat := List.zipWith (fun x y => x ^^^ y) a b

/-- The first `len` keystream bytes. -/
def streamOf (ks : Nat → Nat) (len : Nat) : List Nat :=
  (List.range len).map fun i => ks i % 256

theorem streamOf_length (ks : Nat → Nat) (len : Nat) : (streamOf ks len).length = len := by
  simp [streamOf]

theorem xorBytes_cancel : ∀ (pt ks : List Nat), ks.length = pt.length →
    xorBytes (xorBytes pt ks) ks = pt := by
  intro pt
  induction pt with
  | nil => intro ks h; simp [xorBytes]
  | cons p pt2 ih =>
    intro ks h
    cases ks with
    | nil => simp at h
    | cons k ks2 =>
      simp only [xorBytes, List.zipWith_cons_cons, List.cons.injEq]
      constructor
      · rw [Nat.xor_assoc, Nat.xor_self, Nat.xor_zero]
      · exact ih ks2 (by simpa using h)

theorem xorBytes_lt : ∀ (a b : List Nat), (∀ x ∈ a, x < 256) → (∀ x ∈ b, x < 256) →
    ∀ x ∈ xorBytes a b, x < 256 := by
  intro a
  induction a with
  | nil => intro b _ _ x hx; simp [xorBytes] at hx
  | cons p a2 ih =>
    intro b ha hb x hx
    cases b with
    | nil => simp [xorBytes] at hx
    | cons k b2 =>
      simp only [xorBytes, List.zipWith_cons_cons, List.mem_cons] at hx
      rcases hx with hx | hx
      · subst hx
        have h1 : p < 2 ^ 8 := by have := ha p (by simp); omega
        have h2 : k < 2 ^ 8 := by have := hb k (by simp); omega
        have := Nat.xor_lt_two_pow h1 h2
        omega
      · exact ih b2 (fun y hy => ha y (by simp [hy])) (fun y hy => hb y (by simp [hy])) x hx

/-- Abstract model of the AES-256-GCM primitive used via the external
`cryptography` package: a keystream generator (the CTR stream of the
block cipher) and a raw tag function (GHASH).  The round trip below holds
for every such pair, hence in particular for AES-256-GCM. -/
structure AeadModel where
  ks : List Nat → List Nat → Nat → Nat
  tagOf : List Nat → List Nat → List Nat → List Nat

/-- The 16-byte authentication tag (`encryptor.tag`). -/
def gcmTag (m : AeadModel) (key iv ct : List Nat) : List Nat :=
  (((m.tagOf key iv ct).map fun b => b % 256) ++ List.replicate 16 0).take 16

theorem gcmTag_length (m : AeadModel) (key iv ct : List Nat) :
    (gcmTag m key iv ct).length = 16 := by
  simp [gcmTag]

theorem gcmTag_bytes (m : AeadModel) (key iv ct : List Nat) :
    ∀ b ∈ gcmTag m key iv ct, b < 256 := by
  intro b hb
  simp only [gcmTag] at hb
  have hb2 := List.mem_of_mem_take hb
  rcases List.mem_append.mp hb2 with h | h
  · obtain ⟨y, -, hy⟩ := List.mem_map.mp h
    omega
  · have := List.eq_of_mem_replicate h
    omega

/-- `crypto.encrypt_data`: JSON-dump the document, UTF-8 encode it,
encrypt with the keystream, compute the tag, and base64-encode
`iv ++ tag ++ ciphertext`.  The key is the PBKDF2 derivation from the
machine identity (`_get_encryption_key`), shared with `decrypt_data`;
the IV is the `os.urandom(12)` draw. -/
def encrypt_data (m : AeadModel) (key iv : List Nat) (x : Jval) : List Nat :=
  let pt := utf8Encode (jsonDump x)
  let ct := xorBytes pt (streamOf (m.ks key iv) pt.length)
  b64encode (iv ++ gcmTag m key iv ct ++ ct)

/-- `crypto.decrypt_data`: base64-decode, split at offsets 12 and 28 into
IV, tag and ciphertext, verify the tag, decrypt, UTF-8 decode and JSON
parse; every failure path raises `ValueError` in Python, modelled as
`none`. -/
def decrypt_data (m : AeadModel) (key : List Nat) (blob : List Nat) : Option Jval :=
  match b64decode blob with
  | none => none
  | some bytes =>
    let iv := bytes.take 12
    let tag := (bytes.drop 12).take 16
    let ct := bytes.drop 28
    if gcmTag m key iv ct = tag then
      let pt := xorBytes ct (streamOf (m.ks key iv) ct.length)
      match utf8Decode (pt.length + 1) pt with
      | none => none
      | some codes => jsonParse codes
    else none

/-- A Unicode scalar value (encodable by `str.encode`): below `0x110000`
and not a lone surrogate. -/
def scalarOk (c : Nat) : Bool :=
  decide (c < 1114112) && (decide (c < 55296) || decide (57344 ≤ c))

mutual
/-- Serializability of a document by `encrypt_data`: every string in it
consists of Unicode scalar values (Python raises `UnicodeEncodeError` on
lone surrogates at the UTF-8 step). -/
def wfJ : Jval → Bool
  | Jval.jnull => true
  | Jval.jbool _ => true
  | Jval.jint _ => true
  | Jval.jstr s => s.all scalarOk
  | Jval.jarr items => wfJList items
  | Jval.jobj fields => wfJFields fields

/-- Serializability of an array segment. -/
def wfJList : List Jval → Bool
  | [] => true
  | v :: rest => wfJ v && wfJList rest

/-- Serializability of an object segment. -/
def wfJFields : List (List Nat × Jval) → Bool
  | [] => true
  | f :: rest => f.1.all scalarOk && wfJ f.2 && wfJFields rest
end

theorem hexDigit_lt (m : Nat) (h : m < 16) : hexDigit m < 128 := by
  unfold hexDigit
  split <;> omega

theorem escapeChar_codes_lt (c : Nat) (hc : c < 1114112) :
    ∀ d ∈ escapeChar c, d < 1114112 := by
  intro d hd
  unfold escapeChar at hd
  by_cases h34 : c = 34
  · simp [h34] at hd; omega
  · by_cases h92 : c = 92
    · simp [h34, h92] at hd; omega
    · by_cases h8 : c = 8
      · simp [h34, h92, h8] at hd; omega
      · by_cases h9 : c = 9
        · simp [h34, h92, h8, h9] at hd; omega
        · by_cases h10 : c = 10
          · simp [h34, h92, h8, h9, h10] at hd; omega
          · by_cases h12 : c = 12
            · simp [h34, h92, h8, h9, h10, h12] at hd; omega
            · by_cases h13 : c = 13
              · simp [h34, h92, h8, h9, h10, h12, h13] at hd; omega
              · by_cases hlt : c < 32
                · simp [h34, h92, h8, h9, h10, h12, h13, hlt] at hd
                  have hx1 := hexDigit_lt (c / 16) (by omega)
                  have hx2 := hexDigit_lt (c % 16) (by omega)
                  rcases hd with h | h | h | h | h | h <;> omega
                · simp [h34, h92, h8, h9, h10, h12, h13, hlt] at hd
                  omega

theorem strDump_codes_lt (s : List Nat) (h : ∀ d ∈ s, scalarOk d = true) :
    ∀ c ∈ strDump s, c < 1114112 := by
  intro c hc
  rw [strDump] at hc
  rcases List.mem_cons.mp hc with hc | hc
  · omega
  rcases List.mem_append.mp hc with hc | hc
  · obtain ⟨l, hl, hcl⟩ := List.mem_flatten.mp hc
    obtain ⟨d, hd, hdl⟩ := List.mem_map.mp hl
    have hds : scalarOk d = true := h d hd
    have hd2 : d < 1114112 := by
      simp [scalarOk] at hds
      omega
    exact escapeChar_codes_lt d hd2 c (hdl ▸ hcl)
  · have h34 : c = 34 := by simpa using hc
    omega

theorem intChars_codes_lt (n : Int) : ∀ c ∈ intChars n, c < 1114112 := by
  intro c hc
  unfold intChars at hc
  by_cases hneg : n < 0
  · simp only [if_pos hneg] at hc
    rcases List.mem_cons.mp hc with hc | hc
    · omega
    · have := natCharsAux_digits _ _ (by omega) c hc
      omega
  · rw [if_neg hneg] at hc
    have := natCharsAux_digits _ _ (by omega) c hc
    omega

theorem jsonDump_codes_lt : ∀ N : Nat,
    (∀ v : Jval, jsize v ≤ N → wfJ v = true → ∀ c ∈ jsonDump v, c < 1114112) ∧
    (∀ items : List Jval, jsizeList items ≤ N → wfJList items = true →
      ∀ c ∈ dumpArrTail items, c < 1114112) ∧
    (∀ fields : List (List Nat × Jval), jsizeFields fields ≤ N →
      wfJFields fields = true → ∀ c ∈ dumpObjTail fields, c < 1114112) := by
  intro N
  induction N using Nat.strong_induction_on with
  | _ N IH =>
  refine ⟨?_, ?_, ?_⟩
  · intro v hvN hwf c hc
    cases v with
    | jnull => simp [jsonDump] at hc; omega
    | jbool b => cases b <;> · simp [jsonDump] at hc; omega
    | jint n => exact intChars_codes_lt n c hc
    | jstr s =>
      have hs : ∀ d ∈ s, scalarOk d = true := by simpa [wfJ] using hwf
      exact strDump_codes_lt s hs c hc
    | jarr items =>
      cases items with
      | nil => simp [jsonDump] at hc; omega
      | cons v items2 =>
        have hsz : jsize (Jval.jarr (v :: items2)) = jsize v + jsizeList items2 + 2 := by
          simp [jsize, jsizeList]
          try omega
        rw [hsz] at hvN
        have hwf2 : wfJ v = true ∧ wfJList items2 = true := by
          simpa [wfJ, wfJList] using hwf
        simp only [jsonDump] at hc
        rcases List.mem_cons.mp hc with hc | hc
        · omega
        rcases List.mem_append.mp hc with hc | hc
        · rcases List.mem_append.mp hc with hc | hc
          · exact (IH (jsize v) (by omega)).1 v le_rfl hwf2.1 c hc
          · exact (IH (jsizeList items2) (by omega)).2.1 items2 le_rfl hwf2.2 c hc
        · have h93 : c = 93 := by simpa using hc
          omega
    | jobj fields =>
      cases fields with
      | nil => simp [jsonDump] at hc; omega
      | cons fld fields2 =>
        obtain ⟨k0, v0⟩ := fld
        have hsz : jsize (Jval.jobj ((k0, v0) :: fields2))
            = jsize v0 + jsizeFields fields2 + 2 := by
          simp [jsize, jsizeFields]
          try omega
        rw [hsz] at hvN
        have hwf2 : ((∀ d ∈ k0, scalarOk d = true) ∧ wfJ v0 = true)
            ∧ wfJFields fields2 = true := by
          simpa [wfJ, wfJFields] using hwf
        simp only [jsonDump, dumpField] at hc
        rcases List.mem_cons.mp hc with hc | hc
        · omega
        rcases List.mem_append.mp hc with hc | hc
        · rcases List.mem_append.mp hc with hc | hc
          · rcases List.mem_append.mp hc with hc | hc
            · rcases List.mem_append.mp hc with hc | hc
              · exact strDump_codes_lt k0 hwf2.1.1 c hc
              · have : c = 58 ∨ c = 32 := by simpa using hc
                omega
            · exact (IH (jsize v0) (by omega)).1 v0 le_rfl hwf2.1.2 c hc
          · exact (IH (jsizeFields fields2) (by omega)).2.2 fields2 le_rfl hwf2.2 c hc
        · have h125 : c = 125 := by simpa using hc
          omega
  · intro items hiN hwf c hc
    cases items with
    | nil => simp [dumpArrTail] at hc
    | cons v items2 =>
      have hsz : jsizeList (v :: items2) = jsize v + jsizeList items2 + 1 := by
        simp [jsizeList]
      rw [hsz] at hiN
      have hwf2 : wfJ v = true ∧ wfJList items2 = true := by
        simpa [wfJList] using hwf
      simp only [dumpArrTail] at hc
      rcases List.mem_cons.mp hc with hc | hc
      · omega
      rcases List.mem_cons.mp hc with hc | hc
      · omega
      rcases List.mem_append.mp hc with hc | hc
      · exact (IH (jsize v) (by omega)).1 v le_rfl hwf2.1 c hc
      · exact (IH (jsizeList items2) (by omega)).2.1 items2 le_rfl hwf2.2 c hc
  · intro fields hiN hwf c hc
    cases fields with
    | nil => simp [dumpObjTail] at hc
    | cons fld fields2 =>
      obtain ⟨k0, v0⟩ := fld
      have hsz : jsizeFields ((k0, v0) :: fields2)
          = jsize v0 + jsizeFields fields2 + 1 := by
        simp [jsizeFields]
      rw [hsz] at hiN
      have hwf2 : ((∀ d ∈ k0, scalarOk d = true) ∧ wfJ v0 = true)
          ∧ wfJFields fields2 = true := by
        simpa [wfJFields] using hwf
      simp only [dumpObjTail, dumpField] at hc
      rcases List.mem_cons.mp hc with hc | hc
      · omega
      rcases List.mem_cons.mp hc with hc | hc
      · omega
      rcases List.mem_append.mp hc with hc | hc
      · rcases List.mem_append.mp hc with hc | hc
        · rcases List.mem_append.mp hc with hc | hc
          · exact strDump_codes_lt k0 hwf2.1.1 c hc
          · have : c = 58 ∨ c = 32 := by simpa using hc
            omega
        · exact (IH (jsize v0) (by omega)).1 v0 le_rfl hwf2.1.2 c hc
      · exact (IH (jsizeFields fields2) (by omega)).2.2 fields2 le_rfl hwf2.2 c hc

/-- The plaintext bytes `encrypt_data` feeds the cipher. -/
def encPt (x : Jval) : List Nat := utf8Encode (jsonDump x)

/-- The ciphertext bytes `encrypt_data` produces. -/
def encCt (m : AeadModel) (key iv : List Nat) (x : Jval) : List Nat :=
  xorBytes (encPt x) (streamOf (m.ks key iv) (encPt x).length)

theorem encrypt_data_eq (m : AeadModel) (key iv : List Nat) (x : Jval) :
    encrypt_data m key iv x
      = b64encode (iv ++ gcmTag m key iv (encCt m key iv x) ++ encCt m key iv x) := rfl

theorem encPt_bytes_lt (x : Jval) (hwf : wfJ x = true) : ∀ b ∈ encPt x, b < 256 := by
  intro b hb
  have hcodes : ∀ c ∈ jsonDump x, c < 1114112 :=
    (jsonDump_codes_lt (jsize x)).1 x le_rfl hwf
  simp only [encPt, utf8Encode] at hb
  obtain ⟨l, hl, hbl⟩ := List.mem_flatten.mp hb
  obtain ⟨d, hd, hdl⟩ := List.mem_map.mp hl
  exact utf8EncodeChar_bytes_lt d (hcodes d hd) b (hdl ▸ hbl)

theorem streamOf_bytes_lt (ks : Nat → Nat) (len : Nat) :
    ∀ b ∈ streamOf ks len, b < 256 := by
  intro b hb
  simp only [streamOf, List.mem_map] at hb
  obtain ⟨i, -, rfl⟩ := hb
  omega

theorem decrypt_data_encrypt_data (m : AeadModel) (key iv : List Nat) (x : Jval)
    (hiv : iv.length = 12) (hivb : ∀ b ∈ iv, b < 256) (hwf : wfJ x = true) :
    decrypt_data m key (encrypt_data m key iv x) = some x := by
  have hcodes : ∀ c ∈ jsonDump x, c < 1114112 :=
    (jsonDump_codes_lt (jsize x)).1 x le_rfl hwf
  have hctb : ∀ b ∈ encCt m key iv x, b < 256 :=
    xorBytes_lt _ _ (encPt_bytes_lt x hwf) (streamOf_bytes_lt _ _)
  have htagb := gcmTag_bytes m key iv (encCt m key iv x)
  have hall : ∀ b ∈ iv ++ gcmTag m key iv (encCt m key iv x) ++ encCt m key iv x,
      b < 256 := by
    intro b hb
    rcases List.mem_append.mp hb with hb | hb
    · rcases List.mem_append.mp hb with hb | hb
      · exact hivb b hb
      · exact htagb b hb
    · exact hctb b hb
  have h1 : (iv ++ gcmTag m key iv (encCt m key iv x) ++ encCt m key iv x).take 12
      = iv := by
    rw [List.append_assoc]
    exact List.take_left' hiv
  have h2 : ((iv ++ gcmTag m key iv (encCt m key iv x)
      ++ encCt m key iv x).drop 12).take 16 = gcmTag m key iv (encCt m key iv x) := by
    rw [List.append_assoc, List.drop_left' hiv]
    exact List.take_left' (gcmTag_length m key iv _)
  have h3 : (iv ++ gcmTag m key iv (encCt m key iv x) ++ encCt m key iv x).drop 28
      = encCt m key iv x :=
    List.drop_left' (by simp [hiv, gcmTag_length])
  have hctlen : (encCt m key iv x).length = (encPt x).length := by
    simp [encCt, xorBytes, streamOf_length]
  have hcancel : xorBytes (encCt m key iv x) (streamOf (m.ks key iv) (encPt x).length)
      = encPt x := by
    rw [encCt]
    exact xorBytes_cancel _ _ (streamOf_length _ _)
  have hdec : utf8Decode ((encPt x).length + 1) (encPt x) = some (jsonDump x) :=
    utf8_roundtrip (jsonDump x) hcodes _ (Nat.lt_succ_self _)
  rw [encrypt_data_eq]
  simp only [decrypt_data]
  rw [b64_roundtrip _ hall]
  simp only [h1, h2, h3]
  rw [if_true, hctlen, hcancel, hdec]
  exact jsonParse_jsonDump x

/-- A concrete AES-GCM instance for evaluating the round trip. -/
def wAead : AeadModel := ⟨fun _ _ _ => 0, fun _ _ _ => []⟩

/-- C4: For every JSON-serializable string-keyed mapping — any object
document whose strings consist of Unicode scalar values, covering the
empty mapping, nested values, history lists and non-ASCII text — feeding
the output of `encrypt_data` to `decrypt_data` with the same derived key
returns exactly the original mapping, for every AES-GCM instance
(keystream and tag function), key, and 12-byte IV. -/
theorem encrypt_decrypt_roundtrip (m : AeadModel) (key iv : List Nat)
    (fields : List (List Nat × Jval)) (hiv : iv.length = 12)
    (hivb : ∀ b ∈ iv, b < 256) (hwf : wfJ (Jval.jobj fields) = true) :
    decrypt_data m key (encrypt_data m key iv (Jval.jobj fields))
      = some (Jval.jobj fields) :=
  decrypt_data_encrypt_data m key iv (Jval.jobj fields) hiv hivb hwf

theorem encrypt_decrypt_roundtrip_witness :
    (List.replicate 12 0 : List Nat).length = 12
    ∧ (∀ b ∈ (List.replicate 12 0 : List Nat), b < 256)
    ∧ wfJ (Jval.jobj [([104, 105], Jval.jstr [233, 10]), ([107], Jval.jarr [Jval.jint (-3), Jval.jnull])]) = true
    ∧ decrypt_data wAead [] (encrypt_data wAead [] (List.replicate 12 0)
        (Jval.jobj [([104, 105], Jval.jstr [233, 10]), ([107], Jval.jarr [Jval.jint (-3), Jval.jnull])]))
      = some (Jval.jobj [([104, 105], Jval.jstr [233, 10]), ([107], Jval.jarr [Jval.jint (-3), Jval.jnull])]) :=
  ⟨by decide, by decide, by rfl,
    encrypt_decrypt_roundtrip wAead [] (List.replicate 12 0)
      [([104, 105], Jval.jstr [233, 10]), ([107], Jval.jarr [Jval.jint (-3), Jval.jnull])]
      (by decide) (by decide) (by rfl)⟩
